import Mathlib

/-!
Shallow embedding of the chess position core of this repository
(src/Stockfish/position.h, src/Stockfish/position.cpp) together with the
attack-geometry primitives it uses.  The repository does not ship
bitboard.h / bitboard.cpp / types.h / movegen.h, so those primitives are
modelled from the specification (spec.md §3, §4.2); every such definition
carries a doc comment saying so.  Everything else is a direct translation
of the source.
-/

namespace SF

abbrev Bitboard := Nat

/-- Modelled from the spec: a square is one of 64 cells encoded as a small
integer (types.h is absent); `file_of`, `rank_of`, `make_square` follow the
standard encoding square = 8 * rank + file used by position.cpp. -/
def file_of (s : Nat) : Nat := s % 8

/-- Modelled from the spec: rank of a square (types.h is absent). -/
def rank_of (s : Nat) : Nat := s / 8

/-- Modelled from the spec: square from file and rank (types.h is absent). -/
def make_square (f r : Nat) : Nat := r * 8 + f

/-- Modelled from the spec: a piece is a (color, role) pair with a distinguished
"none" value 0; the numeric encoding is forced by the `PieceToChar` table
" PNBRQK  pnbrqk" that position.cpp indexes with the raw piece value
(types.h is absent): white role t is t, black role t is 8 + t. -/
def make_piece (c t : Nat) : Nat := c * 8 + t

/-- Modelled from the spec: role of a piece code (types.h is absent). -/
def type_of (pc : Nat) : Nat := pc % 8

/-- Modelled from the spec: color of a piece code (types.h is absent). -/
def color_of (pc : Nat) : Nat := pc / 8

/-- Modelled from the spec: square seen from a color's point of view
(types.h is absent); `relative_square c s = s XOR (56 * c)`. -/
def relative_square (c s : Nat) : Nat := s ^^^ (c * 56)

/-- Modelled from the spec: rank seen from a color's point of view
(types.h is absent). -/
def relative_rank (c r : Nat) : Nat := r ^^^ (c * 7)

/-- Modelled from the spec: a pawn of color c pushed one rank forward lands on
this square; white pushes up (+8), black down (-8) (types.h is absent). -/
def pawn_push_add (c s : Nat) : Nat := if c = 0 then s + 8 else s - 8

/-- Modelled from the spec: the square one pawn-push of color c behind s, i.e.
the C++ expression `s - pawn_push(c)` (types.h is absent). -/
def pawn_push_sub (c s : Nat) : Nat := if c = 0 then s - 8 else s + 8

/-- Orthogonal unit directions (file step, rank step). -/
def orthDirs : List (Int × Int) := [(1, 0), (-1, 0), (0, 1), (0, -1)]

/-- Diagonal unit directions. -/
def diagDirs : List (Int × Int) := [(1, 1), (1, -1), (-1, 1), (-1, -1)]

/-- Queen directions: orthogonal then diagonal. -/
def allDirs : List (Int × Int) := orthDirs ++ diagDirs

/-- Modelled from the spec: one step from square s in direction d, `none` when
the step leaves the board (attack geometry of the absent bitboard.cpp). -/
def stepSq (s : Nat) (d : Int × Int) : Option Nat :=
  let f : Int := (s % 8 : Nat)
  let r : Int := (s / 8 : Nat)
  let f2 := f + d.1
  let r2 := r + d.2
  if 0 ≤ f2 ∧ f2 < 8 ∧ 0 ≤ r2 ∧ r2 < 8 then some (r2 * 8 + f2).toNat else none

/-- k steps from s in direction d; `none` when the path leaves the board. -/
def stepN : Nat → Nat → (Int × Int) → Option Nat
  | 0, s, _ => some s
  | k + 1, s, d =>
    match stepSq s d with
    | some u => stepN k u d
    | none => none

/-- Modelled from the spec: squares of one sliding ray from s in direction d
under occupancy occ; the ray includes the first occupied square and stops
there (attack geometry of the absent bitboard.cpp). -/
def rayWalk : Nat → Nat → (Int × Int) → Bitboard → Bitboard
  | 0, _, _, _ => 0
  | fuel + 1, s, d, occ =>
    match stepSq s d with
    | none => 0
    | some u => (1 <<< u) ||| (if occ.testBit u then 0 else rayWalk fuel u d occ)

/-- Union of the rays of a direction list. -/
def slide (s : Nat) (ds : List (Int × Int)) (occ : Bitboard) : Bitboard :=
  ds.foldr (fun d acc => rayWalk 8 s d occ ||| acc) 0

/-- Modelled from the spec: rook attacks from s under occupancy occ
(`attacks_bb<ROOK>` of the absent bitboard.h). -/
def attacks_bb_rook (s : Nat) (occ : Bitboard) : Bitboard := slide s orthDirs occ

/-- Modelled from the spec: bishop attacks from s under occupancy occ
(`attacks_bb<BISHOP>` of the absent bitboard.h). -/
def attacks_bb_bishop (s : Nat) (occ : Bitboard) : Bitboard := slide s diagDirs occ

/-- Modelled from the spec: rook attacks on an empty board
(`PseudoAttacks[ROOK]` of the absent bitboard.cpp). -/
def pseudo_attacks_rook (s : Nat) : Bitboard := attacks_bb_rook s 0

/-- Modelled from the spec: bishop attacks on an empty board
(`PseudoAttacks[BISHOP]` of the absent bitboard.cpp). -/
def pseudo_attacks_bishop (s : Nat) : Bitboard := attacks_bb_bishop s 0

/-- Union of single steps from s along a delta list, dropping steps that leave
the board. -/
def stepBB (s : Nat) (ds : List (Int × Int)) : Bitboard :=
  ds.foldr (fun d acc =>
    match stepSq s d with
    | some u => (1 <<< u) ||| acc
    | none => acc) 0

/-- Knight step deltas. -/
def knightDirs : List (Int × Int) :=
  [(1, 2), (2, 1), (2, -1), (1, -2), (-1, -2), (-2, -1), (-2, 1), (-1, 2)]

/-- White pawn capture deltas (diagonally forward). -/
def pawnDirsW : List (Int × Int) := [(-1, 1), (1, 1)]

/-- Black pawn capture deltas. -/
def pawnDirsB : List (Int × Int) := [(-1, -1), (1, -1)]

/-- Modelled from the spec: knight attack pattern (absent bitboard.cpp). -/
def knight_attacks (s : Nat) : Bitboard := stepBB s knightDirs

/-- Modelled from the spec: king attack pattern (absent bitboard.cpp). -/
def king_attacks (s : Nat) : Bitboard := stepBB s allDirs

/-- Modelled from the spec: pawn attack pattern of color c (absent
bitboard.cpp); pawns attack diagonally forward relative to their color. -/
def pawn_attacks (c s : Nat) : Bitboard :=
  stepBB s (if c = 0 then pawnDirsW else pawnDirsB)

/-- Modelled from the spec: the step-attack table `StepAttacksBB` of the absent
bitboard.cpp, indexed by piece code: pawns by color, knight and king fixed
patterns, all other codes empty. -/
def step_attacks (pc s : Nat) : Bitboard :=
  if type_of pc = 1 then pawn_attacks (color_of pc) s
  else if type_of pc = 2 then knight_attacks s
  else if type_of pc = 6 then king_attacks s
  else 0

/-- Modelled from the spec: `attacks_bb(Piece, Square, Bitboard)` of the absent
bitboard.h: sliders by ray scan, everything else by step table. -/
def attacks_bb (pc s : Nat) (occ : Bitboard) : Bitboard :=
  if type_of pc = 3 then attacks_bb_bishop s occ
  else if type_of pc = 4 then attacks_bb_rook s occ
  else if type_of pc = 5 then attacks_bb_rook s occ ||| attacks_bb_bishop s occ
  else step_attacks pc s

/-- Walk from s in direction d looking for t: `some bb` with bb the squares
strictly between when t is found, `none` otherwise. -/
def betWalk : Nat → Nat → (Int × Int) → Nat → Option Bitboard
  | 0, _, _, _ => none
  | fuel + 1, s, d, t =>
    match stepSq s d with
    | none => none
    | some u =>
      if u = t then some 0
      else
        match betWalk fuel u d t with
        | some bb => some (bb ||| (1 <<< u))
        | none => none

/-- Modelled from the spec: `between_bb s t` is the set of squares strictly
between two aligned squares, empty when the squares are not aligned
(absent bitboard.h). -/
def between_bb (s t : Nat) : Bitboard :=
  allDirs.foldr (fun d acc =>
    match betWalk 8 s d t with
    | some bb => bb ||| acc
    | none => acc) 0

/-- Modelled from the spec: `LineBB[s][t]`, the full line through two aligned
squares extended to the board edges and including both endpoints, empty when
unaligned (absent bitboard.cpp). -/
def line_bb (s t : Nat) : Bitboard :=
  allDirs.foldr (fun d acc =>
    if (rayWalk 8 s d 0).testBit t then
      acc ||| (1 <<< s) ||| rayWalk 8 s d 0 ||| rayWalk 8 s (-d.1, -d.2) 0
    else acc) 0

/-- Modelled from the spec: `aligned a b c` tests whether three squares lie on
one line, as `aligned` via `LineBB` in the absent bitboard.h. -/
def aligned (a b c : Nat) : Bool := (line_bb a b).testBit c

/-- Modelled from the spec: `more_than_one b` is `b & (b - 1)` as a truth
value (absent bitboard.h). -/
def more_than_one (b : Bitboard) : Bool := decide (b &&& (b - 1) ≠ 0)

/-- Least significant set bit index, fuel-based so that it reduces; fuel 64
covers every board mask (`lsb` of the absent bitboard.h). -/
def lsbAux : Nat → Nat → Nat
  | 0, _ => 0
  | fuel + 1, b => if b &&& 1 = 1 then 0 else 1 + lsbAux fuel (b >>> 1)

/-- Modelled from the spec: index of the least significant set bit (absent
bitboard.h). -/
def lsb (b : Nat) : Nat := lsbAux 64 b

/-- Number of set bits among bits 0..63, the popcount of a board mask. -/
def popcount (b : Bitboard) : Nat :=
  ((Finset.range 64).filter fun i => b.testBit i).card

/-- Modelled from the spec: a move is a tagged category (0 normal, 1 promotion,
2 en passant, 3 castling) with origin and destination squares and, for
promotions, the promoted role; movegen.h and the move encoding of types.h are
absent, and castling is encoded as "king captures own rook" exactly as the
source expects. -/
structure Move where
  f : Nat
  t : Nat
  kind : Nat
  promo : Nat
deriving DecidableEq

/-- The position aggregate of position.h (lines 124-152), with the fixed-size
arrays represented as functions; `epSquare = 64` encodes `SQ_NONE`. -/
structure Position where
  board : Nat → Nat
  byTypeBB : Nat → Bitboard
  byColorBB : Nat → Bitboard
  epSquare : Nat
  pieceCount : Nat → Nat
  index : Nat → Nat
  pieceList : Nat → Nat → Nat
  castlingRightsMask : Nat → Nat
  castlingRookSquare : Nat → Nat
  castlingPath : Nat → Bitboard
  checkersBB : Bitboard
  blockersForKing : Nat → Bitboard
  pinnersForKing : Nat → Bitboard
  checkSquares : Nat → Bitboard
  sideToMove : Nat
  castlingRights : Nat
  rule50 : Nat
  pliesFromNull : Nat
  turn : Nat

/-- Aggregate occupancy, `pieces()`. -/
def pieces (p : Position) : Bitboard := p.byTypeBB 0

/-- Occupancy of one role, `pieces(PieceType)`. -/
def piecesT (p : Position) (t : Nat) : Bitboard := p.byTypeBB t

/-- Occupancy of two roles, `pieces(PieceType, PieceType)`. -/
def piecesTT (p : Position) (t1 t2 : Nat) : Bitboard := p.byTypeBB t1 ||| p.byTypeBB t2

/-- Occupancy of one color, `pieces(Color)`. -/
def piecesC (p : Position) (c : Nat) : Bitboard := p.byColorBB c

/-- Occupancy of one colored role, `pieces(Color, PieceType)`. -/
def piecesCT (p : Position) (c t : Nat) : Bitboard := p.byColorBB c &&& p.byTypeBB t

/-- Occupancy of two colored roles, `pieces(Color, PieceType, PieceType)`. -/
def piecesCTT (p : Position) (c t1 t2 : Nat) : Bitboard :=
  p.byColorBB c &&& (p.byTypeBB t1 ||| p.byTypeBB t2)

/-- Ledger lookup, `piece_on`. -/
def piece_on (p : Position) (s : Nat) : Nat := p.board s

/-- Ledger emptiness test, `empty`. -/
def square_empty (p : Position) (s : Nat) : Bool := decide (p.board s = 0)

/-- The king square of color c, `square<KING>(c)` = `pieceList[make_piece(c, KING)][0]`. -/
def king_square (p : Position) (c : Nat) : Nat := p.pieceList (make_piece c 6) 0

/-- Checkers accessor. -/
def checkers (p : Position) : Bitboard := p.checkersBB

/-- Discovered-check candidates: own pieces blocking the enemy king. -/
def discovered_check_candidates (p : Position) : Bitboard :=
  p.blockersForKing (p.sideToMove ^^^ 1) &&& p.byColorBB p.sideToMove

/-- Pinned pieces of color c: own blockers of the own king. -/
def pinned_pieces (p : Position) (c : Nat) : Bitboard :=
  p.blockersForKing c &&& p.byColorBB c

/-- Castling-right test for one right, `can_castle(CastlingRight)`. -/
def can_castle_cr (p : Position) (cr : Nat) : Nat := p.castlingRights &&& cr

/-- Castling-right test for a color, `can_castle(Color)`. -/
def can_castle_c (p : Position) (c : Nat) : Nat :=
  p.castlingRights &&& (3 <<< (2 * c))

/-- Translation of `Position::put_piece` (position.h lines 222-231); the
sequential array writes become sequential function updates. -/
def put_piece (p : Position) (pc s : Nat) : Position :=
  let bit := 1 <<< s
  let bt0 := Function.update p.byTypeBB 0 (p.byTypeBB 0 ||| bit)
  let bt := Function.update bt0 (type_of pc) (bt0 (type_of pc) ||| bit)
  let bc := Function.update p.byColorBB (color_of pc) (p.byColorBB (color_of pc) ||| bit)
  let idx := Function.update p.index s (p.pieceCount pc)
  let pl := fun x => if x = pc then Function.update (p.pieceList pc) (p.pieceCount pc) s
            else p.pieceList x
  let c1 := Function.update p.pieceCount pc (p.pieceCount pc + 1)
  let c2 := Function.update c1 (make_piece (color_of pc) 0)
            (c1 (make_piece (color_of pc) 0) + 1)
  { p with
    board := Function.update p.board s pc
    byTypeBB := bt
    byColorBB := bc
    index := idx
    pieceList := pl
    pieceCount := c2 }

/-- Translation of `Position::remove_piece` (position.h lines 233-247).  As in
the source, the ledger entry `board s` is NOT cleared here; the swap-remove
compaction of the piece list is translated write for write. -/
def remove_piece (p : Position) (pc s : Nat) : Position :=
  let bit := 1 <<< s
  let bt0 := Function.update p.byTypeBB 0 (p.byTypeBB 0 ^^^ bit)
  let bt := Function.update bt0 (type_of pc) (bt0 (type_of pc) ^^^ bit)
  let bc := Function.update p.byColorBB (color_of pc) (p.byColorBB (color_of pc) ^^^ bit)
  let newCnt := p.pieceCount pc - 1
  let lastSquare := p.pieceList pc newCnt
  let idx := Function.update p.index lastSquare (p.index s)
  -- the C++ writes pieceList[pc][index[lastSquare]] right after the assignment
  -- index[lastSquare] = index[s], so the written slot is index[s]
  let pl1 := Function.update (p.pieceList pc) (p.index s) lastSquare
  let pl2 := fun x => if x = pc then Function.update pl1 newCnt 64 else p.pieceList x
  let c1 := Function.update p.pieceCount pc newCnt
  let c2 := Function.update c1 (make_piece (color_of pc) 0)
            (c1 (make_piece (color_of pc) 0) - 1)
  { p with
    byTypeBB := bt
    byColorBB := bc
    index := idx
    pieceList := pl2
    pieceCount := c2 }

/-- Translation of `Position::move_piece` (position.h lines 249-261);
`index f` is left stale exactly as in the source. -/
def move_piece (p : Position) (pc f t : Nat) : Position :=
  let ftbb := (1 <<< f) ^^^ (1 <<< t)
  let bt0 := Function.update p.byTypeBB 0 (p.byTypeBB 0 ^^^ ftbb)
  let bt := Function.update bt0 (type_of pc) (bt0 (type_of pc) ^^^ ftbb)
  let bc := Function.update p.byColorBB (color_of pc) (p.byColorBB (color_of pc) ^^^ ftbb)
  let idx := Function.update p.index t (p.index f)
  let pl := fun x => if x = pc then Function.update (p.pieceList pc) (p.index f) t
            else p.pieceList x
  { p with
    board := Function.update (Function.update p.board f 0) t pc
    byTypeBB := bt
    byColorBB := bc
    index := idx
    pieceList := pl }

/-- Translation of `Position::attackers_to(Square, Bitboard)`
(position.cpp lines 332-340). -/
def attackers_to (p : Position) (s : Nat) (occ : Bitboard) : Bitboard :=
  (pawn_attacks 1 s &&& piecesCT p 0 1) |||
  (pawn_attacks 0 s &&& piecesCT p 1 1) |||
  (knight_attacks s &&& piecesT p 2) |||
  (attacks_bb_rook s occ &&& piecesTT p 4 5) |||
  (attacks_bb_bishop s occ &&& piecesTT p 3 5) |||
  (king_attacks s &&& piecesT p 6)

/-- Loop body of `Position::slider_blockers` (position.cpp lines 261-272): peel
snipers one least-significant bit at a time, accumulating the (blockers,
pinners) pair; the fuel argument bounds the iteration count and the function
is always called with fuel = the sniper mask itself, which dominates its own
popcount. -/
def sbLoop (p : Position) (s : Nat) : Nat → Nat → Bitboard × Bitboard → Bitboard × Bitboard
  | 0, _, acc => acc
  | fuel + 1, snipers, acc =>
    if snipers = 0 then acc
    else
      let sniperSq := lsb snipers
      let rest := snipers &&& (snipers - 1)
      let b := between_bb s sniperSq &&& pieces p
      if more_than_one b then sbLoop p s fuel rest acc
      else
        let result := acc.1 ||| b
        let pinners :=
          if b &&& piecesC p (color_of (piece_on p s)) ≠ 0 then acc.2 ||| (1 <<< sniperSq)
          else acc.2
        sbLoop p s fuel rest (result, pinners)

/-- Sniper mask of `Position::slider_blockers` (position.cpp lines 258-259). -/
def sniper_mask (p : Position) (sliders : Bitboard) (s : Nat) : Bitboard :=
  ((pseudo_attacks_rook s &&& piecesTT p 5 4) |||
   (pseudo_attacks_bishop s &&& piecesTT p 5 3)) &&& sliders

/-- Translation of `Position::slider_blockers` (position.cpp lines 252-274),
returning the (result, pinners) pair. -/
def slider_blockers (p : Position) (sliders : Bitboard) (s : Nat) : Bitboard × Bitboard :=
  let snipers := sniper_mask p sliders s
  sbLoop p s snipers snipers (0, 0)

/-- Translation of `Position::gives_check` (position.cpp lines 276-326). -/
def gives_check (p : Position) (m : Move) : Bool :=
  let f := m.f
  let t := m.t
  let us := p.sideToMove
  let them := us ^^^ 1
  if p.checkSquares (type_of (piece_on p f)) &&& (1 <<< t) ≠ 0 then true
  else if discovered_check_candidates p &&& (1 <<< f) ≠ 0 ∧
          aligned f t (king_square p them) = false then true
  else if m.kind = 0 then false
  else if m.kind = 1 then
    attacks_bb m.promo t (pieces p ^^^ (1 <<< f)) &&& (1 <<< king_square p them) ≠ 0
  else if m.kind = 2 then
    let capsq := make_square (file_of t) (rank_of f)
    let b := (pieces p ^^^ (1 <<< f) ^^^ (1 <<< capsq)) ||| (1 <<< t)
    ((attacks_bb_rook (king_square p them) b &&& piecesCTT p us 5 4) |||
     (attacks_bb_bishop (king_square p them) b &&& piecesCTT p us 5 3)) ≠ 0
  else if m.kind = 3 then
    let kfrom := f
    let rfrom := t
    let kto := relative_square us (if rfrom > kfrom then 6 else 2)
    let rto := relative_square us (if rfrom > kfrom then 5 else 3)
    (pseudo_attacks_rook rto &&& (1 <<< king_square p them) ≠ 0) ∧
    (attacks_bb_rook rto ((pieces p ^^^ (1 <<< kfrom) ^^^ (1 <<< rfrom)) |||
        (1 <<< rto) ||| (1 <<< kto)) &&& (1 <<< king_square p them) ≠ 0)
  else false

/-- Translation of `Position::legal` (position.cpp lines 346-385). -/
def legal (p : Position) (m : Move) : Bool :=
  let us := p.sideToMove
  let f := m.f
  if m.kind = 2 then
    let ksq := king_square p us
    let t := m.t
    let capsq := pawn_push_sub us t
    let occupied := (pieces p ^^^ (1 <<< f) ^^^ (1 <<< capsq)) ||| (1 <<< t)
    (attacks_bb_rook ksq occupied &&& piecesCTT p (us ^^^ 1) 5 4 = 0) ∧
    (attacks_bb_bishop ksq occupied &&& piecesCTT p (us ^^^ 1) 5 3 = 0)
  else if type_of (piece_on p f) = 6 then
    m.kind = 3 ∨ attackers_to p m.t (pieces p) &&& piecesC p (us ^^^ 1) = 0
  else
    pinned_pieces p us &&& (1 <<< f) = 0 ∨ aligned f m.t (king_square p us) = true

/-- Translation of `Position::set_castling_right` (position.cpp lines 225-246);
`c | cs` on (Color, CastlingSide) is `WHITE_OO << ((cs == QUEEN_SIDE) + 2 c)`. -/
def set_castling_right (p : Position) (c rfrom : Nat) : Position :=
  let kfrom := king_square p c
  let cs : Nat := if kfrom < rfrom then 0 else 1
  let cr := 1 <<< (cs + 2 * c)
  let p1 := { p with
    castlingRights := p.castlingRights ||| cr
    castlingRightsMask := fun s =>
      if s = kfrom ∨ s = rfrom then p.castlingRightsMask s ||| cr
      else p.castlingRightsMask s
    castlingRookSquare := Function.update p.castlingRookSquare cr rfrom }
  let kto := relative_square c (if cs = 0 then 6 else 2)
  let rto := relative_square c (if cs = 0 then 5 else 3)
  let path := fun lo hi =>
    (List.range (hi + 1 - lo)).foldr (fun i acc =>
      if lo + i ≠ kfrom ∧ lo + i ≠ rfrom then (1 <<< (lo + i)) ||| acc else acc) 0
  let pathA := path (min rfrom rto) (max rfrom rto)
  let pathB := path (min kfrom kto) (max kfrom kto)
  { p1 with castlingPath :=
      Function.update p1.castlingPath cr (p1.castlingPath cr ||| pathA ||| pathB) }

/-- Translation of `Position::do_castling` (position.cpp lines 206-221),
returning the updated position together with the by-reference outputs
(new king destination, rook origin, rook destination). -/
def do_castling (p : Position) (f t : Nat) : Position × Nat × Nat × Nat :=
  let us := p.sideToMove
  let kingSide := t > f
  let rfrom := t
  let rto := relative_square us (if kingSide then 5 else 3)
  let t2 := relative_square us (if kingSide then 6 else 2)
  let p1 := remove_piece p (make_piece us 6) f
  let p2 := remove_piece p1 (make_piece us 4) rfrom
  let p3 := { p2 with board := Function.update (Function.update p2.board f 0) rfrom 0 }
  let p4 := put_piece p3 (make_piece us 6) t2
  let p5 := put_piece p4 (make_piece us 4) rto
  (p5, t2, rfrom, rto)

/-- Translation of `Position::move` (position.cpp lines 391-466), the single
forward move application, preserving the statement order and the data flow of
the source; `gives_check` is invoked on the already-mutated board before the
side to move is flipped, exactly as in the source.  The conditional
assignments of the source that only touch a scalar field (castling rights,
en-passant target, halfmove clock) are rendered as conditional field values;
the reads feeding them (`p.board`, `p.sideToMove`, the ply counters) are
unchanged by the preceding statements they follow, so the data flow is the
same as in the source. -/
def move (p : Position) (m : Move) : Position :=
  let p0 := { p with turn := p.turn + 1, rule50 := p.rule50 + 1,
                     pliesFromNull := p.pliesFromNull + 1 }
  let us := p.sideToMove
  let them := us ^^^ 1
  let f := m.f
  let pc := p.board f
  -- captured piece: none for castling, the en-passant pawn, or the ledger
  -- entry at the destination (position.cpp lines 406-413)
  let captured := if m.kind = 3 then 0
    else if m.kind = 2 then make_piece them 1 else p.board m.t
  let p1 := if m.kind = 3 then (do_castling p0 f m.t).1 else p0
  let t := if m.kind = 3 then relative_square us (if m.t > m.f then 6 else 2)
    else m.t
  -- capture block (position.cpp lines 417-429)
  let p2 :=
    if captured ≠ 0 then
      let cap := if m.kind = 2 then pawn_push_sub us t else t
      let pa := if m.kind = 2 then { p1 with board := Function.update p1.board cap 0 }
                else p1
      { remove_piece pa captured cap with rule50 := 0 }
    else p1
  -- en-passant reset and castling-rights revocation (lines 431-437)
  let p3 := { p2 with epSquare := 64 }
  let mask := p.castlingRightsMask f ||| p.castlingRightsMask t
  let p4 := { p3 with castlingRights :=
      if p3.castlingRights ≠ 0 ∧ mask ≠ 0 then
        p3.castlingRights &&& (15 ^^^ (mask &&& 15))
      else p3.castlingRights }
  let p5 := if m.kind ≠ 3 then move_piece p4 pc f t else p4
  -- pawn block (lines 442-460): promotion replaces the pawn, the double-push
  -- en-passant target and the pawn-move clock reset are scalar effects
  let p6core :=
    if m.kind = 1 ∧ type_of pc = 1 then
      put_piece (remove_piece p5 pc t) (make_piece us m.promo) t
    else p5
  let p6 := { p6core with
    epSquare :=
      if type_of pc = 1 ∧ (t ^^^ f) = 16 ∧
         pawn_attacks us (pawn_push_sub us t) &&& piecesCT p5 them 1 ≠ 0 then
        (f + t) / 2
      else p6core.epSquare
    rule50 := if type_of pc = 1 then 0 else p6core.rule50 }
  let newCheckers :=
    if gives_check p6 m then
      attackers_to p6 (king_square p6 them) (pieces p6) &&& piecesC p6 us
    else 0
  let p7 := { p6 with checkersBB := newCheckers }
  { p7 with sideToMove := p7.sideToMove ^^^ 1 }

/-- Translation of `Position::is_draw` (position.cpp line 472). -/
def is_draw (p : Position) : Bool := decide (p.rule50 > 50)

/-- Translation of `Position::clear` (position.cpp lines 478-486): all fields
zeroed, then the en-passant square and every piece-list entry set to
`SQ_NONE` (64). -/
def clearPos : Position :=
  { board := fun _ => 0
    byTypeBB := fun _ => 0
    byColorBB := fun _ => 0
    epSquare := 64
    pieceCount := fun _ => 0
    index := fun _ => 0
    pieceList := fun _ _ => 64
    castlingRightsMask := fun _ => 0
    castlingRookSquare := fun _ => 0
    castlingPath := fun _ => 0
    checkersBB := 0
    blockersForKing := fun _ => 0
    pinnersForKing := fun _ => 0
    checkSquares := fun _ => 0
    sideToMove := 0
    castlingRights := 0
    rule50 := 0
    pliesFromNull := 0
    turn := 0 }

/-- The `PieceToChar` table " PNBRQK  pnbrqk" of position.cpp line 12. -/
def pieceChars : List Char :=
  [' ', 'P', 'N', 'B', 'R', 'Q', 'K', ' ', ' ', 'p', 'n', 'b', 'r', 'q', 'k']

/-- First index of a character in `pieceChars`, `PieceToChar.find`. -/
def charIndex (c : Char) : Option Nat := pieceChars.indexOf? c

/-- C `isspace` on the characters that can occur here. -/
def isSpaceC (c : Char) : Bool :=
  decide (c.toNat = 32 ∨ (9 ≤ c.toNat ∧ c.toNat ≤ 13))

/-- C `isdigit`. -/
def isDigitC (c : Char) : Bool := decide (48 ≤ c.toNat ∧ c.toNat ≤ 57)

/-- C `islower` on letters. -/
def isLowerC (c : Char) : Bool := decide (97 ≤ c.toNat ∧ c.toNat ≤ 122)

/-- C `toupper` on letters. -/
def toUpperC (c : Char) : Char :=
  if isLowerC c then Char.ofNat (c.toNat - 32) else c

/-- Piece-placement loop of `Position::fen(const string&)` (position.cpp lines
142-155): digits skip squares, '/' steps down one rank, known piece letters are
placed, anything else is silently ignored; a whitespace ends the loop after
being consumed.  The running square is an Int exactly like the C++ enum
arithmetic. -/
def parsePlacement : List Char → Int → Position → List Char × Position
  | [], _, p => ([], p)
  | c :: rest, sq, p =>
    if isSpaceC c then (rest, p)
    else if isDigitC c then parsePlacement rest (sq + ((c.toNat : Int) - 48)) p
    else if c = '/' then parsePlacement rest (sq - 16) p
    else
      match charIndex c with
      | some idx => parsePlacement rest (sq + 1) (put_piece p idx sq.toNat)
      | none => parsePlacement rest sq p

/-- Active-color phase of `Position::fen(const string&)` (position.cpp lines
157-160): one char decides the side to move ('w' gives white, anything else
black), then one more char is consumed. -/
def parseColor : List Char → Position → List Char × Position
  | [], p => ([], { p with sideToMove := 1 })
  | c :: rest, p =>
    let p1 := { p with sideToMove := if c = 'w' then 0 else 1 }
    match rest with
    | [] => ([], p1)
    | _ :: rest2 => (rest2, p1)

/-- Rook scan used by the castling phase: walk from sq by step (+1 or -1 as a
flag) until a rook is found on the board; fuel-bounded (the C++ loop is
unbounded and relies on a rook being present). -/
def scanRook : Nat → Position → Nat → Bool → Nat
  | 0, _, sq, _ => sq
  | fuel + 1, p, sq, up =>
    if type_of (piece_on p sq) = 4 then sq
    else scanRook fuel p (if up then sq + 1 else sq - 1) up

/-- Castling phase of `Position::fen(const string&)` (position.cpp lines
162-183): 'K'/'Q' (either case) locate the rook by scanning from the relevant
corner, explicit file letters are taken directly, anything else is skipped;
a whitespace ends the loop. -/
def parseCastling : List Char → Position → List Char × Position
  | [], p => ([], p)
  | c :: rest, p =>
    if isSpaceC c then (rest, p)
    else
      let col := if isLowerC c then 1 else 0
      let tk := toUpperC c
      if tk = 'K' then
        parseCastling rest (set_castling_right p col (scanRook 8 p (relative_square col 7) false))
      else if tk = 'Q' then
        parseCastling rest (set_castling_right p col (scanRook 8 p (relative_square col 0) true))
      else if 'A' ≤ tk ∧ tk ≤ 'H' then
        parseCastling rest (set_castling_right p col (make_square (tk.toNat - 65) (relative_rank col 0)))
      else parseCastling rest p

/-- En-passant phase of `Position::fen(const string&)` (position.cpp lines
185-196): a file letter and a rank '3'/'6' give the candidate square, accepted
only if a pawn of the side to move attacks it and an enemy pawn stands on the
square it would capture; short-circuit evaluation of the reads is preserved. -/
def parseEP : List Char → Position → List Char × Position
  | [], p => ([], { p with epSquare := 64 })
  | c :: rest, p =>
    if ('a' ≤ c ∧ c ≤ 'h') then
      match rest with
      | [] => ([], { p with epSquare := 64 })
      | r :: rest2 =>
        if r = '3' ∨ r = '6' then
          let eps := make_square (c.toNat - 97) (r.toNat - 49)
          if attackers_to p eps (pieces p) &&& piecesCT p p.sideToMove 1 = 0 ∨
             piecesCT p (p.sideToMove ^^^ 1) 1 &&&
               (1 <<< pawn_push_add (p.sideToMove ^^^ 1) eps) = 0 then
            (rest2, { p with epSquare := 64 })
          else (rest2, { p with epSquare := eps })
        else (rest2, { p with epSquare := 64 })
    else (rest, { p with epSquare := 64 })

/-- Whitespace-skipping decimal read of `operator>>(int)`: skip spaces, then
take digits; a failed read produces 0 (as a C++11 failed extraction does) and
reports failure so that the following read also fails. -/
def parseNum : List Char → Nat × Bool × List Char
  | [] => (0, false, [])
  | c :: rest =>
    if isSpaceC c then parseNum rest
    else if isDigitC c then
      let rec digits : List Char → Nat → Nat × List Char
        | [], acc => (acc, [])
        | d :: ds, acc =>
          if isDigitC d then digits ds (acc * 10 + (d.toNat - 48))
          else (acc, d :: ds)
      let r := digits rest (c.toNat - 48)
      (r.1, true, r.2)
    else (0, false, c :: rest)

/-- Counter phase of `Position::fen(const string&)` (position.cpp line 199). -/
def parseCounters (cs : List Char) (p : Position) : Position :=
  let r1 := parseNum cs
  let r2 := parseNum r1.2.2
  { p with rule50 := r1.1, turn := if r1.2.1 then r2.1 else 0 }

/-- Translation of `Position::fen(const string&)` (position.cpp lines
131-200): clear, then the five parsing phases in source order.  The function
is presented standalone because `clear()` erases every trace of the receiver. -/
def fen_set (cs : List Char) : Position :=
  let r1 := parsePlacement cs 56 clearPos
  let r2 := parseColor r1.1 r1.2
  let r3 := parseCastling r2.1 r2.2
  let r4 := parseEP r3.1 r3.2
  parseCounters r4.1 r4.2

/-- Decimal digits of a number, fuel-bounded so that it reduces. -/
def natChars : Nat → Nat → List Char
  | 0, _ => []
  | fuel + 1, n =>
    if n < 10 then [Char.ofNat (48 + n)]
    else natChars fuel (n / 10) ++ [Char.ofNat (48 + n % 10)]

/-- Decimal rendering of a counter, as `operator<<(int)` produces it. -/
def natToChars (n : Nat) : List Char := natChars 20 n

/-- One rank of the board-layout emitter of `Position::fen()` (position.cpp
lines 90-106): runs of empty squares become a digit, pieces their letter. -/
def emitRank (p : Position) (r : Nat) : Nat → Nat → List Char
  | 0, cnt => if cnt = 0 then [] else [Char.ofNat (48 + cnt)]
  | left + 1, cnt =>
    let f := 8 - (left + 1)
    if piece_on p (make_square f r) = 0 then emitRank p r left (cnt + 1)
    else
      (if cnt = 0 then [] else [Char.ofNat (48 + cnt)]) ++
      [pieceChars.getD (piece_on p (make_square f r)) ' '] ++
      emitRank p r left 0

/-- Board layout part of `Position::fen()`: ranks 8 down to 1 joined by '/'. -/
def emitBoard (p : Position) : List Char :=
  (emitRank p 7 8 0) ++ '/' :: (emitRank p 6 8 0) ++ '/' :: (emitRank p 5 8 0) ++
  '/' :: (emitRank p 4 8 0) ++ '/' :: (emitRank p 3 8 0) ++ '/' :: (emitRank p 2 8 0) ++
  '/' :: (emitRank p 1 8 0) ++ '/' :: (emitRank p 0 8 0)

/-- Castling field of `Position::fen()` (position.cpp lines 110-123). -/
def emitCastling (p : Position) : List Char :=
  (if can_castle_cr p 1 ≠ 0 then ['K'] else []) ++
  (if can_castle_cr p 2 ≠ 0 then ['Q'] else []) ++
  (if can_castle_cr p 4 ≠ 0 then ['k'] else []) ++
  (if can_castle_cr p 8 ≠ 0 then ['q'] else []) ++
  (if can_castle_c p 0 = 0 ∧ can_castle_c p 1 = 0 then ['-'] else [])

/-- Square name as `Position::to_string` produces it (position.h lines
159-172). -/
def squareChars (s : Nat) : List Char :=
  [Char.ofNat (97 + file_of s), Char.ofNat (49 + rank_of s)]

/-- Translation of `Position::fen()` (position.cpp lines 85-129): board
layout, side letter, castling letters, en-passant field, halfmove clock and
the full-move number derived as `1 + (turn - (sideToMove == BLACK)) / 2`. -/
def fen (p : Position) : List Char :=
  emitBoard p ++
  (if p.sideToMove = 0 then [' ', 'w', ' '] else [' ', 'b', ' ']) ++
  emitCastling p ++
  (if p.epSquare = 64 then [' ', '-', ' ']
   else ' ' :: squareChars p.epSquare ++ [' ']) ++
  natToChars p.rule50 ++ [' '] ++
  natToChars (1 + (p.turn - (if p.sideToMove = 1 then 1 else 0)) / 2)

/-- The standard starting layout named by the spec and position.cpp line 8. -/
def startFEN : List Char :=
  "rnbqkbnr/pppppppp/8/8/8/8/PPPPPPPP/RNBQKBNR w KQkq - 0 1".toList

/-- Translation of `Position::operator=` (position.cpp lines 69-72): the body
`*this = pos` invokes the same operator on the same arguments, so the
call never returns; the fuel argument bounds the modelled recursion depth
and `none` means the call has not returned within that depth. -/
def opAssign : Nat → Position → Position → Option Position
  | 0, _, _ => none
  | fuel + 1, self, pos => opAssign fuel self pos

/-- Translation of `Position::Position(const Position&, Move)` (position.cpp
lines 51-55): `*this = pos; move(m);` — the assignment uses `operator=`, and
only if that returns can the move be applied. -/
def positionFromCopy (fuel : Nat) (init pos : Position) (m : Move) : Option Position :=
  (opAssign fuel init pos).map (fun q => move q m)

/-- Sequential application of a move list, the "sequence of apply calls" of
the spec's invariant property. -/
def applyMoves (p : Position) : List Move → Position
  | [] => p
  | m :: ms => applyMoves (move p m) ms

/-!  Check-state preservation through the decoder phases (claim C10). -/

/-- Agreement of the four incrementally-maintained check/pin state fields. -/
def checkInfoEq (q p : Position) : Prop :=
  q.checkersBB = p.checkersBB ∧ q.blockersForKing = p.blockersForKing ∧
  q.pinnersForKing = p.pinnersForKing ∧ q.checkSquares = p.checkSquares

theorem checkInfoEq_refl (p : Position) : checkInfoEq p p := ⟨rfl, rfl, rfl, rfl⟩

theorem checkInfoEq_trans {a b c : Position} (h1 : checkInfoEq a b) (h2 : checkInfoEq b c) :
    checkInfoEq a c := by
  obtain ⟨x1, x2, x3, x4⟩ := h1
  obtain ⟨y1, y2, y3, y4⟩ := h2
  exact ⟨x1.trans y1, x2.trans y2, x3.trans y3, x4.trans y4⟩

theorem put_piece_checkInfo (p : Position) (pc s : Nat) :
    checkInfoEq (put_piece p pc s) p := ⟨rfl, rfl, rfl, rfl⟩

theorem set_castling_right_checkInfo (p : Position) (c r : Nat) :
    checkInfoEq (set_castling_right p c r) p := ⟨rfl, rfl, rfl, rfl⟩

theorem parsePlacement_checkInfo (cs : List Char) :
    ∀ sq p, checkInfoEq (parsePlacement cs sq p).2 p := by
  induction cs with
  | nil => intro sq p; exact checkInfoEq_refl p
  | cons c rest ih =>
    intro sq p
    unfold parsePlacement
    by_cases h1 : isSpaceC c = true
    · simp [h1]; exact checkInfoEq_refl p
    · by_cases h2 : isDigitC c = true
      · simp [h1, h2]; exact ih _ p
      · by_cases h3 : c = '/'
        · simp [h1, h2, h3]; exact ih _ p
        · cases h4 : charIndex c with
          | some idx =>
            simp [h1, h2, h3, h4]
            exact checkInfoEq_trans (ih _ _) (put_piece_checkInfo p idx sq.toNat)
          | none => simp [h1, h2, h3, h4]; exact ih _ p

theorem parseColor_checkInfo (cs : List Char) (p : Position) :
    checkInfoEq (parseColor cs p).2 p := by
  cases cs with
  | nil => exact ⟨rfl, rfl, rfl, rfl⟩
  | cons c rest =>
    cases rest with
    | nil => exact ⟨rfl, rfl, rfl, rfl⟩
    | cons d rest2 => exact ⟨rfl, rfl, rfl, rfl⟩

theorem parseCastling_checkInfo (cs : List Char) :
    ∀ p, checkInfoEq (parseCastling cs p).2 p := by
  induction cs with
  | nil => intro p; exact checkInfoEq_refl p
  | cons c rest ih =>
    intro p
    unfold parseCastling
    by_cases h1 : isSpaceC c = true
    · simp [h1]; exact checkInfoEq_refl p
    · by_cases h2 : toUpperC c = 'K'
      · simp [h1, h2]
        exact checkInfoEq_trans (ih _) (set_castling_right_checkInfo p _ _)
      · by_cases h3 : toUpperC c = 'Q'
        · simp [h1, h2, h3]
          exact checkInfoEq_trans (ih _) (set_castling_right_checkInfo p _ _)
        · by_cases h4 : ('A' ≤ toUpperC c ∧ toUpperC c ≤ 'H')
          · simp [h1, h2, h3, h4]
            exact checkInfoEq_trans (ih _) (set_castling_right_checkInfo p _ _)
          · simp [h1, h2, h3, h4]; exact ih p

theorem checkInfoEq_ite {c : Prop} [Decidable c] {x y : List Char × Position}
    {p : Position} (hx : checkInfoEq x.2 p) (hy : checkInfoEq y.2 p) :
    checkInfoEq (if c then x else y).2 p := by
  by_cases h : c
  · simpa [h] using hx
  · simpa [h] using hy

theorem parseEP_checkInfo (cs : List Char) (p : Position) :
    checkInfoEq (parseEP cs p).2 p := by
  cases cs with
  | nil => exact ⟨rfl, rfl, rfl, rfl⟩
  | cons c rest =>
    simp only [parseEP]
    by_cases h1 : ('a' ≤ c ∧ c ≤ 'h')
    · rw [if_pos h1]
      cases rest with
      | nil => exact ⟨rfl, rfl, rfl, rfl⟩
      | cons r rest2 =>
        dsimp only
        by_cases h2 : (r = '3' ∨ r = '6')
        · rw [if_pos h2]
          refine checkInfoEq_ite ?_ ?_ <;> exact ⟨rfl, rfl, rfl, rfl⟩
        · rw [if_neg h2]; exact ⟨rfl, rfl, rfl, rfl⟩
    · rw [if_neg h1]; exact ⟨rfl, rfl, rfl, rfl⟩

theorem parseCounters_checkInfo (cs : List Char) (p : Position) :
    checkInfoEq (parseCounters cs p) p := ⟨rfl, rfl, rfl, rfl⟩

/-- Claim C10: immediately after decoding any notation string the whole
incrementally-maintained check and pin state is empty — the checkers set, both
colors' blocker and pinner sets, and every role's check-squares set are the
empty bitboard, whatever the decoded board contains. -/
theorem fen_set_check_state_empty (cs : List Char) (c t : Nat) :
    (fen_set cs).checkersBB = 0 ∧ (fen_set cs).blockersForKing c = 0 ∧
    (fen_set cs).pinnersForKing c = 0 ∧ (fen_set cs).checkSquares t = 0 := by
  have h : checkInfoEq (fen_set cs) clearPos := by
    unfold fen_set
    exact checkInfoEq_trans (parseCounters_checkInfo _ _)
      (checkInfoEq_trans (parseEP_checkInfo _ _)
        (checkInfoEq_trans (parseCastling_checkInfo _ _)
          (checkInfoEq_trans (parseColor_checkInfo _ _)
            (parsePlacement_checkInfo _ _ _))))
  obtain ⟨h1, h2, h3, h4⟩ := h
  refine ⟨h1, ?_, ?_, ?_⟩
  · exact congrFun h2 c
  · exact congrFun h3 c
  · exact congrFun h4 t

/-- Claim C9: copy-construction plus one move application never terminates,
because `Position::operator=` re-invokes itself unconditionally; no recursion
depth suffices for `opAssign` to return, so the constructor never yields the
moved copy and the spec's termination property fails. -/
theorem position_copy_construct_diverges (fuel : Nat) (init pos : Position) (m : Move) :
    positionFromCopy fuel init pos m = none := by
  have h : ∀ n self q, opAssign n self q = none := by
    intro n
    induction n with
    | zero => intro self q; rfl
    | succ k ih => intro self q; exact ih self q
  unfold positionFromCopy
  rw [h fuel init pos]
  rfl

/-- Position of the C1 failing input: white queen d1, white king e1, black
king e8, white to move. -/
def c1pos : Position := fen_set "4k3/8/8/8/8/8/8/3QK3 w - - 0 1".toList

/-- The C1 failing move: the legal queen move d1-d8, delivering check. -/
def c1move : Move := ⟨3, 59, 0, 0⟩

/-- Claim C1 (refuting evaluation): at the concrete failing input the applied
move is legal and delivers check — the white queen on d8 attacks the black
king on e8, so `attackers_to` of the new king square intersected with the
mover's pieces is the non-empty set containing d8 — yet the incrementally
maintained checkers set computed by `move` is empty, and the position
therefore reports "not in check".  The check-squares and blocker sets that
`gives_check` consults are never initialised by the decoder nor recomputed by
`move`, so the incremental checkers set disagrees with the recomputed one. -/
theorem checkers_disagrees_after_move :
    legal c1pos c1move = true ∧
    (move c1pos c1move).checkersBB = 0 ∧
    attackers_to (move c1pos c1move) (king_square (move c1pos c1move) 1)
        (pieces (move c1pos c1move)) &&& piecesC (move c1pos c1move) 0 = 1 <<< 59 ∧
    (1 : Nat) <<< 59 ≠ 0 := by
  refine ⟨by decide, by decide, by decide, by decide⟩

/-- A syntactically valid notation string differing from the standard start
only in its full-move number, which is 3. -/
def fenMove3 : List Char :=
  "rnbqkbnr/pppppppp/8/8/8/8/PPPPPPPP/RNBQKBNR w KQkq - 0 3".toList

/-- Claim C3 (counterexample): decoding a syntactically valid string and
re-encoding it does not reproduce the full-move number — the decoder stores
the full-move number in the ply counter, while the encoder re-derives the
full-move number from that counter as `1 + (turn - (stm == black)) / 2`, so
" ... 0 3" comes back as " ... 0 2". -/
theorem fen_roundtrip_counterexample : fen (fen_set fenMove3) ≠ fenMove3 := by
  decide

/-- Claim C3 (amended): decoding the standard starting layout and immediately
encoding it reproduces the exact notation string — board layout, side to move,
castling rights, en-passant field, halfmove clock and full-move number. -/
theorem fen_roundtrip_start : fen (fen_set startFEN) = startFEN := by
  decide

/-!  Bit-level helpers for the ledger invariants. -/

theorem testBit_one_shiftLeft (s i : Nat) : ((1 <<< s) : Nat).testBit i = decide (s = i) := by
  rw [Nat.one_shiftLeft]
  exact Nat.testBit_two_pow

theorem and_eq_zero_iff_forall (a b : Nat) :
    a &&& b = 0 ↔ ∀ i, ¬(a.testBit i = true ∧ b.testBit i = true) := by
  constructor
  · intro h i hi
    have ht := Nat.testBit_and a b i
    rw [h, Nat.zero_testBit, hi.1, hi.2] at ht
    exact Bool.noConfusion ht
  · intro h
    apply Nat.eq_of_testBit_eq
    intro i
    rw [Nat.testBit_and, Nat.zero_testBit]
    rcases ha : a.testBit i with _ | _
    · rfl
    · rcases hb : b.testBit i with _ | _
      · rfl
      · exact absurd ⟨ha, hb⟩ (h i)

theorem ne_zero_of_testBit {a : Nat} {i : Nat} (h : a.testBit i = true) : a ≠ 0 := by
  intro h0
  rw [h0, Nat.zero_testBit] at h
  exact Bool.noConfusion h

/-- A mask equals the singleton of t exactly when it holds t and nothing else. -/
theorem eq_one_shiftLeft_iff (b t : Nat) :
    b = 1 <<< t ↔ b.testBit t = true ∧ ∀ u, b.testBit u = true → u = t := by
  constructor
  · intro h
    subst h
    constructor
    · rw [testBit_one_shiftLeft]; simp
    · intro u hu
      rw [testBit_one_shiftLeft] at hu
      exact (of_decide_eq_true hu).symm
  · intro ⟨h1, h2⟩
    apply Nat.eq_of_testBit_eq
    intro i
    rw [testBit_one_shiftLeft]
    rcases hb : b.testBit i with _ | _
    · rcases hd : decide (t = i) with _ | _
      · rfl
      · have : t = i := of_decide_eq_true hd
        subst this
        rw [h1] at hb
        exact Bool.noConfusion hb
    · have := h2 i hb
      subst this
      simp

/-- Number of squares of the 64-square board holding piece code pc in a
ledger. -/
def countBoard (b : Nat → Nat) (pc : Nat) : Nat :=
  ((Finset.range 64).filter fun s => b s = pc).card

theorem countBoard_congr {b b2 : Nat → Nat} (pc : Nat)
    (h : ∀ s < 64, b s = b2 s) : countBoard b pc = countBoard b2 pc := by
  unfold countBoard
  congr 1
  apply Finset.filter_congr
  intro x hx
  rw [h x (Finset.mem_range.mp hx)]

theorem filter_update_eq (b : Nat → Nat) (s v pc : Nat) (hs : s < 64) :
    ((Finset.range 64).filter fun x => Function.update b s v x = pc) =
    if v = pc then insert s (((Finset.range 64).filter fun x => b x = pc).erase s)
    else ((Finset.range 64).filter fun x => b x = pc).erase s := by
  by_cases hv : v = pc
  · rw [if_pos hv]
    ext x
    by_cases hx : x = s
    · subst hx
      simp [Function.update_same, hv, Finset.mem_range.mpr hs]
    · simp [Finset.mem_filter, Finset.mem_insert, hx, Finset.mem_erase,
        Function.update_noteq hx]
  · rw [if_neg hv]
    ext x
    by_cases hx : x = s
    · subst hx
      simp [Function.update_same, hv]
    · simp [Finset.mem_filter, Finset.mem_erase, hx, Function.update_noteq hx]

theorem countBoard_update_put (b : Nat → Nat) (s pc : Nat) (hs : s < 64)
    (h0 : b s = 0) (hpc : pc ≠ 0) :
    countBoard (Function.update b s pc) pc = countBoard b pc + 1 := by
  unfold countBoard
  rw [filter_update_eq b s pc pc hs, if_pos rfl]
  have hnotmem : s ∉ ((Finset.range 64).filter fun x => b x = pc) := by
    simp [Finset.mem_filter, h0, Ne.symm hpc]
  rw [Finset.erase_eq_of_not_mem hnotmem, Finset.card_insert_of_not_mem hnotmem]

theorem countBoard_update_other (b : Nat → Nat) (s v pc : Nat) (hs : s < 64)
    (hv : v ≠ pc) (hbs : b s ≠ pc) :
    countBoard (Function.update b s v) pc = countBoard b pc := by
  unfold countBoard
  rw [filter_update_eq b s v pc hs, if_neg hv]
  have hnotmem : s ∉ ((Finset.range 64).filter fun x => b x = pc) := by
    simp [Finset.mem_filter, hbs]
  rw [Finset.erase_eq_of_not_mem hnotmem]

theorem countBoard_update_clear (b : Nat → Nat) (s pc : Nat) (hs : s < 64)
    (hb : b s = pc) (hpc : pc ≠ 0) :
    countBoard (Function.update b s 0) pc + 1 = countBoard b pc := by
  unfold countBoard
  rw [filter_update_eq b s 0 pc hs, if_neg (Ne.symm hpc)]
  have hmem : s ∈ ((Finset.range 64).filter fun x => b x = pc) := by
    simp [Finset.mem_filter, hb, Finset.mem_range.mpr hs]
  exact Finset.card_erase_add_one hmem

/-- Real-piece codes: a color 0/1 together with a role 1..6. -/
def isPiece (pc : Nat) : Prop := pc < 16 ∧ 1 ≤ pc % 8 ∧ pc % 8 ≤ 6

instance (pc : Nat) : Decidable (isPiece pc) := by
  unfold isPiece
  exact inferInstance

theorem isPiece_ne_zero {pc : Nat} (h : isPiece pc) : pc ≠ 0 := by
  obtain ⟨-, h1, -⟩ := h
  intro h0
  subst h0
  simp at h1

theorem make_piece_eta {pc : Nat} (h : pc < 16) :
    make_piece (color_of pc) (type_of pc) = pc := by
  unfold make_piece color_of type_of
  omega

/-- The ledger/mask/list consistency invariant of the spec's data model: mask
bits are exactly determined by the ledger below square 64 and clear above it,
piece counts agree with the ledger, and the piece lists and the reverse index
are mutually inverse on the occupied squares. -/
def Valid (p : Position) : Prop :=
  (∀ t < 7, p.byTypeBB t < 2 ^ 64) ∧
  (∀ c < 2, p.byColorBB c < 2 ^ 64) ∧
  (∀ s < 64, p.board s = 0 ∨ isPiece (p.board s)) ∧
  (∀ s < 64, (p.byTypeBB 0).testBit s = decide (p.board s ≠ 0)) ∧
  (∀ s < 64, ∀ c < 2, (p.byColorBB c).testBit s =
    decide (p.board s ≠ 0 ∧ color_of (p.board s) = c)) ∧
  (∀ s < 64, ∀ t, 1 ≤ t → t < 7 → (p.byTypeBB t).testBit s =
    decide (p.board s ≠ 0 ∧ type_of (p.board s) = t)) ∧
  (∀ pc < 16, isPiece pc → p.pieceCount pc = countBoard p.board pc) ∧
  (∀ pc < 16, isPiece pc → ∀ i < p.pieceCount pc,
    p.pieceList pc i < 64 ∧ p.board (p.pieceList pc i) = pc ∧
    p.index (p.pieceList pc i) = i) ∧
  (∀ s < 64, isPiece (p.board s) →
    p.index s < p.pieceCount (p.board s) ∧ p.pieceList (p.board s) (p.index s) = s)

instance (p : Position) : Decidable (Valid p) := by
  unfold Valid
  exact inferInstance

/-- The invariant only mentions the six redundant-view fields, so any update
of the remaining fields preserves it. -/
theorem valid_congr {p q : Position}
    (hb : q.board = p.board) (ht : q.byTypeBB = p.byTypeBB)
    (hc : q.byColorBB = p.byColorBB) (hn : q.pieceCount = p.pieceCount)
    (hi : q.index = p.index) (hl : q.pieceList = p.pieceList)
    (h : Valid p) : Valid q := by
  unfold Valid
  rw [hb, ht, hc, hn, hi, hl]
  exact h

theorem testBit_or_bit (x s i : Nat) :
    (x ||| 1 <<< s).testBit i = (x.testBit i || decide (s = i)) := by
  rw [Nat.testBit_or, testBit_one_shiftLeft]

theorem testBit_xor_bit (x s i : Nat) :
    (x ^^^ 1 <<< s).testBit i = (x.testBit i).xor (decide (s = i)) := by
  rw [Nat.testBit_xor, testBit_one_shiftLeft]

theorem shiftLeft_lt_two_pow {s : Nat} (hs : s < 64) : (1 <<< s : Nat) < 2 ^ 64 := by
  rw [Nat.one_shiftLeft]
  exact Nat.pow_lt_pow_right (by norm_num) hs

theorem color_of_lt {pc : Nat} (h : pc < 16) : color_of pc < 2 := by
  unfold color_of
  omega

theorem type_of_range {pc : Nat} (h : isPiece pc) :
    1 ≤ type_of pc ∧ type_of pc < 7 := by
  obtain ⟨-, h1, h2⟩ := h
  unfold type_of
  omega

/-- The per-color aggregate slots `make_piece c ALL_PIECES` are not piece
codes. -/
theorem not_isPiece_agg (c : Nat) : ¬ isPiece (make_piece c 0) := by
  intro h
  obtain ⟨-, h1, -⟩ := h
  unfold make_piece at h1
  omega

/-- put_piece preserves the redundant-view invariant when the target square is
empty. -/
theorem valid_put_piece {p : Position} {pc s : Nat} (hv : Valid p)
    (hs : s < 64) (hpc : isPiece pc) (h0 : p.board s = 0) :
    Valid (put_piece p pc s) := by
  obtain ⟨hbt, hbc, hbp, hm0, hmc, hmt, hcnt, hlist, hocc⟩ := hv
  have htr := type_of_range hpc
  have hclt := color_of_lt hpc.1
  have htpc0 : type_of pc ≠ 0 := by omega
  have hagg : make_piece (color_of pc) 0 ≠ pc := by
    have := make_piece_eta hpc.1
    unfold make_piece at *
    omega
  have hb' : (put_piece p pc s).board = Function.update p.board s pc := rfl
  have ht' : ∀ t, (put_piece p pc s).byTypeBB t =
      if t = type_of pc then p.byTypeBB (type_of pc) ||| (1 <<< s)
      else if t = 0 then p.byTypeBB 0 ||| (1 <<< s)
      else p.byTypeBB t := by
    intro t
    show (Function.update (Function.update p.byTypeBB 0 (p.byTypeBB 0 ||| (1 <<< s)))
      (type_of pc) _) t = _
    by_cases h1 : t = type_of pc
    · subst h1
      rw [Function.update_same, if_pos rfl, Function.update_noteq htpc0]
    · rw [Function.update_noteq h1, if_neg h1]
      by_cases h2 : t = 0
      · subst h2
        rw [Function.update_same, if_pos rfl]
      · rw [Function.update_noteq h2, if_neg h2]
  have hc' : ∀ c, (put_piece p pc s).byColorBB c =
      if c = color_of pc then p.byColorBB (color_of pc) ||| (1 <<< s)
      else p.byColorBB c := by
    intro c
    show (Function.update p.byColorBB (color_of pc) _) c = _
    by_cases h1 : c = color_of pc
    · subst h1
      rw [Function.update_same, if_pos rfl]
    · rw [Function.update_noteq h1, if_neg h1]
  have hn' : ∀ x, (put_piece p pc s).pieceCount x =
      if x = make_piece (color_of pc) 0 then p.pieceCount (make_piece (color_of pc) 0) + 1
      else if x = pc then p.pieceCount pc + 1
      else p.pieceCount x := by
    intro x
    show (Function.update (Function.update p.pieceCount pc (p.pieceCount pc + 1))
      (make_piece (color_of pc) 0) _) x = _
    by_cases h1 : x = make_piece (color_of pc) 0
    · subst h1
      rw [Function.update_same, if_pos rfl, Function.update_noteq hagg]
    · rw [Function.update_noteq h1, if_neg h1]
      by_cases h2 : x = pc
      · subst h2
        rw [Function.update_same, if_pos rfl]
      · rw [Function.update_noteq h2, if_neg h2]
  have hl' : ∀ x, (put_piece p pc s).pieceList x =
      if x = pc then Function.update (p.pieceList pc) (p.pieceCount pc) s
      else p.pieceList x := fun _ => rfl
  have hi' : (put_piece p pc s).index = Function.update p.index s (p.pieceCount pc) := rfl
  have hsbit0 : (p.byTypeBB 0).testBit s = false := by
    rw [hm0 s hs]
    simp [h0]
  refine ⟨?_, ?_, ?_, ?_, ?_, ?_, ?_, ?_, ?_⟩
  · -- type-mask bounds
    intro t ht7
    rw [ht']
    have hb1 : p.byTypeBB (type_of pc) < 2 ^ 64 := hbt _ htr.2
    have hb0 : p.byTypeBB 0 < 2 ^ 64 := hbt 0 (by norm_num)
    by_cases h1 : t = type_of pc
    · rw [if_pos h1]
      exact Nat.or_lt_two_pow hb1 (shiftLeft_lt_two_pow hs)
    · rw [if_neg h1]
      by_cases h2 : t = 0
      · rw [if_pos h2]
        exact Nat.or_lt_two_pow hb0 (shiftLeft_lt_two_pow hs)
      · rw [if_neg h2]
        exact hbt t ht7
  · -- color-mask bounds
    intro c hc2
    rw [hc']
    by_cases h1 : c = color_of pc
    · rw [if_pos h1]
      exact Nat.or_lt_two_pow (hbc _ hclt) (shiftLeft_lt_two_pow hs)
    · rw [if_neg h1]
      exact hbc c hc2
  · -- board entries are pieces or empty
    intro u hu
    rw [hb']
    by_cases h1 : u = s
    · subst h1
      rw [Function.update_same]
      exact Or.inr hpc
    · rw [Function.update_noteq h1]
      exact hbp u hu
  · -- aggregate mask pointwise
    intro u hu
    rw [hb', ht', if_neg (Ne.symm htpc0), if_pos rfl, testBit_or_bit]
    by_cases h1 : u = s
    · subst h1
      rw [Function.update_same]
      simp [isPiece_ne_zero hpc]
    · rw [Function.update_noteq h1, hm0 u hu]
      simp [Ne.symm h1]
  · -- color masks pointwise
    intro u hu c hc2
    rw [hb', hc']
    by_cases h1 : c = color_of pc
    · subst h1
      rw [if_pos rfl, testBit_or_bit, hmc u hu _ hclt]
      by_cases h2 : u = s
      · subst h2
        rw [Function.update_same]
        simp [h0, isPiece_ne_zero hpc]
      · rw [Function.update_noteq h2]
        simp [Ne.symm h2]
    · rw [if_neg h1, hmc u hu c hc2]
      by_cases h2 : u = s
      · subst h2
        rw [Function.update_same]
        simp [h0, isPiece_ne_zero hpc, Ne.symm h1]
      · rw [Function.update_noteq h2]
  · -- role masks pointwise
    intro u hu t ht1 ht7
    rw [hb', ht']
    by_cases h1 : t = type_of pc
    · subst h1
      rw [if_pos rfl, testBit_or_bit, hmt u hu _ ht1 ht7]
      by_cases h2 : u = s
      · subst h2
        rw [Function.update_same]
        simp [h0, isPiece_ne_zero hpc]
      · rw [Function.update_noteq h2]
        simp [Ne.symm h2]
    · rw [if_neg h1, if_neg (by omega : t ≠ 0), hmt u hu t ht1 ht7]
      by_cases h2 : u = s
      · subst h2
        rw [Function.update_same]
        simp [h0, isPiece_ne_zero hpc, Ne.symm h1]
      · rw [Function.update_noteq h2]
  · -- counts
    intro x hx16 hxp
    rw [hn', hb']
    by_cases h1 : x = make_piece (color_of pc) 0
    · exfalso
      rw [h1] at hxp
      exact not_isPiece_agg _ hxp
    · rw [if_neg h1]
      by_cases h2 : x = pc
      · subst h2
        rw [if_pos rfl, hcnt x hx16 hxp,
          countBoard_update_put p.board s x hs h0 (isPiece_ne_zero hxp)]
      · rw [if_neg h2, hcnt x hx16 hxp,
          countBoard_update_other p.board s pc x hs (Ne.symm h2)
            (by rw [h0]; exact Ne.symm (isPiece_ne_zero hxp))]
  · -- piece lists point at their squares
    intro x hx16 hxp i hi
    rw [hn'] at hi
    rw [hb', hl', hi']
    by_cases h1 : x = make_piece (color_of pc) 0
    · exfalso
      rw [h1] at hxp
      exact not_isPiece_agg _ hxp
    · rw [if_neg h1] at hi
      by_cases h2 : x = pc
      · subst h2
        rw [if_pos rfl] at hi ⊢
        by_cases h3 : i = p.pieceCount x
        · subst h3
          rw [Function.update_same]
          refine ⟨hs, ?_, ?_⟩
          · rw [Function.update_same]
          · rw [Function.update_same]
        · have hilt : i < p.pieceCount x := by omega
          obtain ⟨he1, he2, he3⟩ := hlist x hx16 hxp i hilt
          rw [Function.update_noteq h3]
          have hes : p.pieceList x i ≠ s := by
            intro heq
            rw [heq, h0] at he2
            exact isPiece_ne_zero hxp he2.symm
          exact ⟨he1, by rw [Function.update_noteq hes]; exact he2,
            by rw [Function.update_noteq hes]; exact he3⟩
      · rw [if_neg h2] at hi ⊢
        obtain ⟨he1, he2, he3⟩ := hlist x hx16 hxp i hi
        have hes : p.pieceList x i ≠ s := by
          intro heq
          rw [heq, h0] at he2
          exact isPiece_ne_zero hxp he2.symm
        exact ⟨he1, by rw [Function.update_noteq hes]; exact he2,
          by rw [Function.update_noteq hes]; exact he3⟩
  · -- occupied squares are indexed
    intro u hu
    rw [hb']
    by_cases h1 : u = s
    · subst h1
      rw [Function.update_same]
      intro _
      have e1 : (put_piece p pc u).index u = p.pieceCount pc := by
        rw [hi', Function.update_same]
      have e2 : (put_piece p pc u).pieceCount pc = p.pieceCount pc + 1 := by
        rw [hn', if_neg (Ne.symm hagg), if_pos rfl]
      have e3 : (put_piece p pc u).pieceList pc (p.pieceCount pc) = u := by
        rw [hl', if_pos rfl, Function.update_same]
      rw [e1, e2, e3]
      exact ⟨by omega, rfl⟩
    · rw [Function.update_noteq h1]
      intro hup
      obtain ⟨ho1, ho2⟩ := hocc u hu hup
      have hna : p.board u ≠ make_piece (color_of pc) 0 := by
        intro heq
        rw [heq] at hup
        exact not_isPiece_agg _ hup
      have e1 : (put_piece p pc s).index u = p.index u := by
        rw [hi']
        exact Function.update_noteq h1 _ _
      rw [e1]
      by_cases h2 : p.board u = pc
      · have e2 : (put_piece p pc s).pieceCount (p.board u) = p.pieceCount pc + 1 := by
          rw [hn', if_neg hna, if_pos h2]
        have e3 : (put_piece p pc s).pieceList (p.board u) (p.index u) = u := by
          rw [hl', if_pos h2]
          have hne : p.index u ≠ p.pieceCount pc := by
            rw [h2] at ho1
            omega
          rw [Function.update_noteq hne]
          rw [h2] at ho2
          exact ho2
        constructor
        · rw [e2]
          rw [h2] at ho1
          omega
        · exact e3
      · have e2 : (put_piece p pc s).pieceCount (p.board u) = p.pieceCount (p.board u) := by
          rw [hn', if_neg hna, if_neg h2]
        have e3 : (put_piece p pc s).pieceList (p.board u) (p.index u) = u := by
          rw [hl', if_neg h2]
          exact ho2
        constructor
        · rw [e2]
          exact ho1
        · exact e3

/-- remove_piece, combined with the ledger clear that every caller performs,
preserves the redundant-view invariant when the removed piece stands on the
square. -/
theorem valid_remove_piece {p : Position} {pc s : Nat} (hv : Valid p)
    (hs : s < 64) (hpc : isPiece pc) (hb : p.board s = pc) :
    Valid { remove_piece p pc s with board := Function.update p.board s 0 } := by
  obtain ⟨hbt, hbc, hbp, hm0, hmc, hmt, hcnt, hlist, hocc⟩ := hv
  have htr := type_of_range hpc
  have hclt := color_of_lt hpc.1
  have htpc0 : type_of pc ≠ 0 := by omega
  have hagg : make_piece (color_of pc) 0 ≠ pc := by
    have := make_piece_eta hpc.1
    unfold make_piece at *
    omega
  have hbs : isPiece (p.board s) := by rw [hb]; exact hpc
  obtain ⟨hsi0, hsl0⟩ := hocc s hs hbs
  rw [hb] at hsi0 hsl0
  have hcnt1 : 1 ≤ p.pieceCount pc := by omega
  obtain ⟨hL1, hL2, hL3⟩ := hlist pc hpc.1 hpc (p.pieceCount pc - 1) (by omega)
  set lastSq := p.pieceList pc (p.pieceCount pc - 1) with hLS
  set q := { remove_piece p pc s with board := Function.update p.board s 0 } with hqdef
  have hinj : ∀ u, u < 64 → p.board u = pc →
      p.index u < p.pieceCount pc ∧ p.pieceList pc (p.index u) = u := by
    intro u hu hbu
    have := hocc u hu (by rw [hbu]; exact hpc)
    rw [hbu] at this
    exact this
  have hlast_iff : lastSq = s ↔ p.index s = p.pieceCount pc - 1 := by
    constructor
    · intro h
      rw [← h]
      exact hL3
    · intro h
      rw [h] at hsl0
      rw [hLS]
      exact hsl0
  have hb' : q.board = Function.update p.board s 0 := rfl
  have ht' : ∀ t, q.byTypeBB t =
      if t = type_of pc then p.byTypeBB (type_of pc) ^^^ (1 <<< s)
      else if t = 0 then p.byTypeBB 0 ^^^ (1 <<< s)
      else p.byTypeBB t := by
    intro t
    show (Function.update (Function.update p.byTypeBB 0 (p.byTypeBB 0 ^^^ (1 <<< s)))
      (type_of pc) _) t = _
    by_cases h1 : t = type_of pc
    · subst h1
      rw [Function.update_same, if_pos rfl, Function.update_noteq htpc0]
    · rw [Function.update_noteq h1, if_neg h1]
      by_cases h2 : t = 0
      · subst h2
        rw [Function.update_same, if_pos rfl]
      · rw [Function.update_noteq h2, if_neg h2]
  have hc' : ∀ c, q.byColorBB c =
      if c = color_of pc then p.byColorBB (color_of pc) ^^^ (1 <<< s)
      else p.byColorBB c := by
    intro c
    show (Function.update p.byColorBB (color_of pc) _) c = _
    by_cases h1 : c = color_of pc
    · subst h1
      rw [Function.update_same, if_pos rfl]
    · rw [Function.update_noteq h1, if_neg h1]
  have hn' : ∀ x, q.pieceCount x =
      if x = make_piece (color_of pc) 0 then p.pieceCount (make_piece (color_of pc) 0) - 1
      else if x = pc then p.pieceCount pc - 1
      else p.pieceCount x := by
    intro x
    show (Function.update (Function.update p.pieceCount pc (p.pieceCount pc - 1))
      (make_piece (color_of pc) 0) _) x = _
    by_cases h1 : x = make_piece (color_of pc) 0
    · subst h1
      rw [Function.update_same, if_pos rfl, Function.update_noteq hagg]
    · rw [Function.update_noteq h1, if_neg h1]
      by_cases h2 : x = pc
      · subst h2
        rw [Function.update_same, if_pos rfl]
      · rw [Function.update_noteq h2, if_neg h2]
  have hl' : ∀ x, q.pieceList x =
      if x = pc then Function.update (Function.update (p.pieceList pc) (p.index s) lastSq)
        (p.pieceCount pc - 1) 64
      else p.pieceList x := fun _ => rfl
  have hi' : q.index = Function.update p.index lastSq (p.index s) := rfl
  have hsbit : ∀ u, u < 64 → (Function.update p.board s 0) u = if u = s then 0 else p.board u := by
    intro u hu
    by_cases h1 : u = s
    · subst h1; rw [Function.update_same, if_pos rfl]
    · rw [Function.update_noteq h1, if_neg h1]
  refine ⟨?_, ?_, ?_, ?_, ?_, ?_, ?_, ?_, ?_⟩
  · -- type-mask bounds
    intro t ht7
    rw [ht']
    by_cases h1 : t = type_of pc
    · rw [if_pos h1]
      exact Nat.xor_lt_two_pow (hbt _ htr.2) (shiftLeft_lt_two_pow hs)
    · rw [if_neg h1]
      by_cases h2 : t = 0
      · rw [if_pos h2]
        exact Nat.xor_lt_two_pow (hbt 0 (by norm_num)) (shiftLeft_lt_two_pow hs)
      · rw [if_neg h2]
        exact hbt t ht7
  · -- color-mask bounds
    intro c hc2
    rw [hc']
    by_cases h1 : c = color_of pc
    · rw [if_pos h1]
      exact Nat.xor_lt_two_pow (hbc _ hclt) (shiftLeft_lt_two_pow hs)
    · rw [if_neg h1]
      exact hbc c hc2
  · -- board entries
    intro u hu
    rw [hb']
    by_cases h1 : u = s
    · subst h1
      rw [Function.update_same]
      exact Or.inl rfl
    · rw [Function.update_noteq h1]
      exact hbp u hu
  · -- aggregate mask pointwise
    intro u hu
    rw [hb', ht', if_neg (Ne.symm htpc0), if_pos rfl, testBit_xor_bit, hm0 u hu]
    by_cases h1 : u = s
    · subst h1
      rw [Function.update_same]
      simp [hb, isPiece_ne_zero hpc]
    · rw [Function.update_noteq h1]
      simp [Ne.symm h1]
  · -- color masks pointwise
    intro u hu c hc2
    rw [hb', hc']
    by_cases h1 : c = color_of pc
    · subst h1
      rw [if_pos rfl, testBit_xor_bit, hmc u hu _ hclt]
      by_cases h2 : u = s
      · subst h2
        rw [Function.update_same]
        simp [hb, isPiece_ne_zero hpc]
      · rw [Function.update_noteq h2]
        simp [Ne.symm h2]
    · rw [if_neg h1, hmc u hu c hc2]
      by_cases h2 : u = s
      · subst h2
        rw [Function.update_same]
        simp [hb, isPiece_ne_zero hpc, Ne.symm h1]
      · rw [Function.update_noteq h2]
  · -- role masks pointwise
    intro u hu t ht1 ht7
    rw [hb', ht']
    by_cases h1 : t = type_of pc
    · subst h1
      rw [if_pos rfl, testBit_xor_bit, hmt u hu _ ht1 ht7]
      by_cases h2 : u = s
      · subst h2
        rw [Function.update_same]
        simp [hb, isPiece_ne_zero hpc]
      · rw [Function.update_noteq h2]
        simp [Ne.symm h2]
    · rw [if_neg h1, if_neg (by omega : t ≠ 0), hmt u hu t ht1 ht7]
      by_cases h2 : u = s
      · subst h2
        rw [Function.update_same]
        simp [hb, isPiece_ne_zero hpc, Ne.symm h1]
      · rw [Function.update_noteq h2]
  · -- counts
    intro x hx16 hxp
    rw [hn', hb']
    by_cases h1 : x = make_piece (color_of pc) 0
    · exfalso
      rw [h1] at hxp
      exact not_isPiece_agg _ hxp
    · rw [if_neg h1]
      by_cases h2 : x = pc
      · subst h2
        rw [if_pos rfl, hcnt x hx16 hxp]
        have := countBoard_update_clear p.board s x hs hb (isPiece_ne_zero hxp)
        omega
      · rw [if_neg h2, hcnt x hx16 hxp,
          countBoard_update_other p.board s 0 x hs (Ne.symm (isPiece_ne_zero hxp))
            (by rw [hb]; exact fun hc => h2 hc.symm)]
  · -- piece lists point at their squares
    intro x hx16 hxp i hi
    rw [hn'] at hi
    rw [hb', hl', hi']
    by_cases h1 : x = make_piece (color_of pc) 0
    · exfalso
      rw [h1] at hxp
      exact not_isPiece_agg _ hxp
    · rw [if_neg h1] at hi
      by_cases h2 : x = pc
      · subst h2
        rw [if_pos rfl] at hi ⊢
        have hi1 : i < p.pieceCount x := by omega
        have hine : i ≠ p.pieceCount x - 1 := by omega
        rw [Function.update_noteq hine]
        by_cases h3 : i = p.index s
        · subst h3
          rw [Function.update_same]
          have hlne : lastSq ≠ s := by
            intro he
            have := hlast_iff.mp he
            omega
          refine ⟨hL1, ?_, ?_⟩
          · rw [Function.update_noteq hlne]
            exact hL2
          · rw [Function.update_same]
        · rw [Function.update_noteq h3]
          obtain ⟨he1, he2, he3⟩ := hlist x hpc.1 hxp i hi1
          have hes : p.pieceList x i ≠ s := by
            intro heq
            rw [heq] at he3
            exact h3 he3.symm
          have helast : p.pieceList x i ≠ lastSq := by
            intro heq
            have : i = p.pieceCount x - 1 := by
              rw [← he3, heq, hL3]
            exact hine this
          refine ⟨he1, ?_, ?_⟩
          · rw [Function.update_noteq hes]
            exact he2
          · rw [Function.update_noteq helast]
            exact he3
      · rw [if_neg h2] at hi ⊢
        obtain ⟨he1, he2, he3⟩ := hlist x hx16 hxp i hi
        have hes : p.pieceList x i ≠ s := by
          intro heq
          rw [heq, hb] at he2
          exact h2 he2.symm
        have helast : p.pieceList x i ≠ lastSq := by
          intro heq
          rw [heq, hL2] at he2
          exact h2 he2.symm
        refine ⟨he1, ?_, ?_⟩
        · rw [Function.update_noteq hes]
          exact he2
        · rw [Function.update_noteq helast]
          exact he3
  · -- occupied squares are indexed
    intro u hu
    rw [hb']
    by_cases h1 : u = s
    · subst h1
      rw [Function.update_same]
      intro habs
      exact absurd rfl (isPiece_ne_zero habs)
    · rw [Function.update_noteq h1]
      intro hup
      have hna : p.board u ≠ make_piece (color_of pc) 0 := by
        intro heq
        rw [heq] at hup
        exact not_isPiece_agg _ hup
      obtain ⟨ho1, ho2⟩ := hocc u hu hup
      by_cases h2 : p.board u = pc
      · have hiu := hinj u hu h2
        have hius : p.index u ≠ p.index s := by
          intro he
          apply h1
          rw [← hiu.2, he, hsl0]
        by_cases h3 : u = lastSq
        · have e1 : q.index u = p.index s := by
            rw [hi', h3, Function.update_same]
          have hsne : p.index s ≠ p.pieceCount pc - 1 := by
            intro he
            exact h1 (h3.trans (hlast_iff.mpr he))
          have e2 : q.pieceCount (p.board u) = p.pieceCount pc - 1 := by
            rw [hn', if_neg hna, if_pos h2]
          have e3 : q.pieceList (p.board u) (p.index s) = u := by
            rw [hl', if_pos h2, Function.update_noteq hsne, Function.update_same, h3]
          rw [e1, e2, e3]
          exact ⟨by omega, rfl⟩
        · have e1 : q.index u = p.index u := by
            rw [hi']
            exact Function.update_noteq (by rw [← hiu.2]; intro he; apply h3; rw [← hiu.2, he]) _ _
          have hne_last : p.index u ≠ p.pieceCount pc - 1 := by
            intro he
            apply h3
            rw [← hiu.2, he]
          have e2 : q.pieceCount (p.board u) = p.pieceCount pc - 1 := by
            rw [hn', if_neg hna, if_pos h2]
          have e3 : q.pieceList (p.board u) (p.index u) = u := by
            rw [hl', if_pos h2, Function.update_noteq hne_last, Function.update_noteq hius]
            rw [h2] at ho2
            exact ho2
          rw [e1, e2, e3]
          rw [h2] at ho1
          exact ⟨by omega, rfl⟩
      · have hul : u ≠ lastSq := by
          intro he
          rw [he, hL2] at h2
          exact h2 rfl
        have e1 : q.index u = p.index u := by
          rw [hi']
          exact Function.update_noteq hul _ _
        have e2 : q.pieceCount (p.board u) = p.pieceCount (p.board u) := by
          rw [hn', if_neg hna, if_neg h2]
        have e3 : q.pieceList (p.board u) (p.index u) = u := by
          rw [hl', if_neg h2]
          exact ho2
        rw [e1, e2, e3]
        exact ⟨ho1, rfl⟩

theorem testBit_xor_bits (x f t i : Nat) :
    (x ^^^ ((1 <<< f) ^^^ (1 <<< t))).testBit i =
    (x.testBit i).xor ((decide (f = i)).xor (decide (t = i))) := by
  rw [Nat.testBit_xor, Nat.testBit_xor, testBit_one_shiftLeft, testBit_one_shiftLeft]

/-- move_piece preserves the redundant-view invariant when the origin holds
the piece and the destination is empty. -/
theorem valid_move_piece {p : Position} {pc f t : Nat} (hv : Valid p)
    (hf : f < 64) (ht : t < 64) (hft : f ≠ t) (hpc : isPiece pc)
    (hbf : p.board f = pc) (hbt0 : p.board t = 0) :
    Valid (move_piece p pc f t) := by
  obtain ⟨hbt, hbc, hbp, hm0, hmc, hmt, hcnt, hlist, hocc⟩ := hv
  have htr := type_of_range hpc
  have hclt := color_of_lt hpc.1
  have htpc0 : type_of pc ≠ 0 := by omega
  have hbfp : isPiece (p.board f) := by rw [hbf]; exact hpc
  obtain ⟨hfi, hfl⟩ := hocc f hf hbfp
  rw [hbf] at hfi hfl
  have hinj : ∀ u, u < 64 → p.board u = pc →
      p.index u < p.pieceCount pc ∧ p.pieceList pc (p.index u) = u := by
    intro u hu hbu
    have := hocc u hu (by rw [hbu]; exact hpc)
    rw [hbu] at this
    exact this
  set q := move_piece p pc f t with hqdef
  have hb' : q.board = Function.update (Function.update p.board f 0) t pc := rfl
  have ht' : ∀ tt, q.byTypeBB tt =
      if tt = type_of pc then p.byTypeBB (type_of pc) ^^^ ((1 <<< f) ^^^ (1 <<< t))
      else if tt = 0 then p.byTypeBB 0 ^^^ ((1 <<< f) ^^^ (1 <<< t))
      else p.byTypeBB tt := by
    intro tt
    show (Function.update (Function.update p.byTypeBB 0 _) (type_of pc) _) tt = _
    by_cases h1 : tt = type_of pc
    · subst h1
      rw [Function.update_same, if_pos rfl, Function.update_noteq htpc0]
    · rw [Function.update_noteq h1, if_neg h1]
      by_cases h2 : tt = 0
      · subst h2
        rw [Function.update_same, if_pos rfl]
      · rw [Function.update_noteq h2, if_neg h2]
  have hc' : ∀ c, q.byColorBB c =
      if c = color_of pc then p.byColorBB (color_of pc) ^^^ ((1 <<< f) ^^^ (1 <<< t))
      else p.byColorBB c := by
    intro c
    show (Function.update p.byColorBB (color_of pc) _) c = _
    by_cases h1 : c = color_of pc
    · subst h1
      rw [Function.update_same, if_pos rfl]
    · rw [Function.update_noteq h1, if_neg h1]
  have hn' : q.pieceCount = p.pieceCount := rfl
  have hl' : ∀ x, q.pieceList x =
      if x = pc then Function.update (p.pieceList pc) (p.index f) t
      else p.pieceList x := fun _ => rfl
  have hi' : q.index = Function.update p.index t (p.index f) := rfl
  have hboard' : ∀ u, u < 64 → q.board u = if u = t then pc else if u = f then 0 else p.board u := by
    intro u hu
    rw [hb']
    by_cases h1 : u = t
    · subst h1
      rw [Function.update_same, if_pos rfl]
    · rw [Function.update_noteq h1, if_neg h1]
      by_cases h2 : u = f
      · subst h2
        rw [Function.update_same, if_pos rfl]
      · rw [Function.update_noteq h2, if_neg h2]
  refine ⟨?_, ?_, ?_, ?_, ?_, ?_, ?_, ?_, ?_⟩
  · intro tt ht7
    rw [ht']
    have hbb : ((1 <<< f) ^^^ (1 <<< t) : Nat) < 2 ^ 64 :=
      Nat.xor_lt_two_pow (shiftLeft_lt_two_pow hf) (shiftLeft_lt_two_pow ht)
    by_cases h1 : tt = type_of pc
    · rw [if_pos h1]
      exact Nat.xor_lt_two_pow (hbt _ htr.2) hbb
    · rw [if_neg h1]
      by_cases h2 : tt = 0
      · rw [if_pos h2]
        exact Nat.xor_lt_two_pow (hbt 0 (by norm_num)) hbb
      · rw [if_neg h2]
        exact hbt tt ht7
  · intro c hc2
    rw [hc']
    have hbb : ((1 <<< f) ^^^ (1 <<< t) : Nat) < 2 ^ 64 :=
      Nat.xor_lt_two_pow (shiftLeft_lt_two_pow hf) (shiftLeft_lt_two_pow ht)
    by_cases h1 : c = color_of pc
    · rw [if_pos h1]
      exact Nat.xor_lt_two_pow (hbc _ hclt) hbb
    · rw [if_neg h1]
      exact hbc c hc2
  · intro u hu
    rw [hboard' u hu]
    by_cases h1 : u = t
    · rw [if_pos h1]
      exact Or.inr hpc
    · rw [if_neg h1]
      by_cases h2 : u = f
      · rw [if_pos h2]
        exact Or.inl rfl
      · rw [if_neg h2]
        exact hbp u hu
  · intro u hu
    rw [hboard' u hu, ht', if_neg (Ne.symm htpc0), if_pos rfl, testBit_xor_bits, hm0 u hu]
    by_cases h1 : u = t
    · rw [if_pos h1]
      subst h1
      simp [hft, isPiece_ne_zero hpc, hbt0]
    · rw [if_neg h1]
      by_cases h2 : u = f
      · rw [if_pos h2]
        subst h2
        simp [Ne.symm h1, hbf, isPiece_ne_zero hpc]
      · rw [if_neg h2]
        simp [Ne.symm h1, Ne.symm h2]
  · intro u hu c hc2
    rw [hboard' u hu, hc']
    by_cases hcc : c = color_of pc
    · subst hcc
      rw [if_pos rfl, testBit_xor_bits, hmc u hu _ hclt]
      by_cases h1 : u = t
      · rw [if_pos h1]
        subst h1
        simp [hft, isPiece_ne_zero hpc, hbt0]
      · rw [if_neg h1]
        by_cases h2 : u = f
        · rw [if_pos h2]
          subst h2
          simp [Ne.symm h1, hbf, isPiece_ne_zero hpc]
        · rw [if_neg h2]
          simp [Ne.symm h1, Ne.symm h2]
    · rw [if_neg hcc, hmc u hu c hc2]
      by_cases h1 : u = t
      · rw [if_pos h1]
        subst h1
        simp [hbt0, isPiece_ne_zero hpc, Ne.symm hcc]
      · rw [if_neg h1]
        by_cases h2 : u = f
        · rw [if_pos h2]
          subst h2
          simp [hbf, isPiece_ne_zero hpc, Ne.symm hcc]
        · rw [if_neg h2]
  · intro u hu tt ht1 ht7
    rw [hboard' u hu, ht']
    by_cases htt : tt = type_of pc
    · subst htt
      rw [if_pos rfl, testBit_xor_bits, hmt u hu _ ht1 ht7]
      by_cases h1 : u = t
      · rw [if_pos h1]
        subst h1
        simp [hft, isPiece_ne_zero hpc, hbt0]
      · rw [if_neg h1]
        by_cases h2 : u = f
        · rw [if_pos h2]
          subst h2
          simp [Ne.symm h1, hbf, isPiece_ne_zero hpc]
        · rw [if_neg h2]
          simp [Ne.symm h1, Ne.symm h2]
    · rw [if_neg htt, if_neg (by omega : tt ≠ 0), hmt u hu tt ht1 ht7]
      by_cases h1 : u = t
      · rw [if_pos h1]
        subst h1
        simp [hbt0, isPiece_ne_zero hpc, Ne.symm htt]
      · rw [if_neg h1]
        by_cases h2 : u = f
        · rw [if_pos h2]
          subst h2
          simp [hbf, isPiece_ne_zero hpc, Ne.symm htt]
        · rw [if_neg h2]
  · intro x hx16 hxp
    rw [hn', hcnt x hx16 hxp]
    rw [hb']
    have step1 : countBoard (Function.update p.board f 0) x =
        countBoard p.board x - (if x = pc then 1 else 0) := by
      by_cases h1 : x = pc
      · rw [if_pos h1]
        subst h1
        have := countBoard_update_clear p.board f x hf hbf (isPiece_ne_zero hxp)
        omega
      · rw [if_neg h1]
        rw [countBoard_update_other p.board f 0 x hf (Ne.symm (isPiece_ne_zero hxp))
          (by rw [hbf]; exact fun hc => h1 hc.symm)]
        omega
    have hft0 : Function.update p.board f 0 t = 0 := by
      rw [Function.update_noteq (Ne.symm hft)]
      exact hbt0
    by_cases h1 : x = pc
    · subst h1
      rw [countBoard_update_put (Function.update p.board f 0) t x ht hft0 (isPiece_ne_zero hxp),
        step1, if_pos rfl]
      have hmem : 1 ≤ countBoard p.board x := by
        unfold countBoard
        have : f ∈ (Finset.range 64).filter fun s => p.board s = x := by
          simp [Finset.mem_range.mpr hf, hbf]
        have := Finset.card_pos.mpr ⟨f, this⟩
        omega
      omega
    · rw [countBoard_update_other (Function.update p.board f 0) t pc x ht
        (Ne.symm h1) (by rw [hft0]; exact Ne.symm (isPiece_ne_zero hxp)),
        step1, if_neg h1]
      omega
  · intro x hx16 hxp i hi
    rw [hn'] at hi
    rw [hl', hi']
    by_cases h1 : x = pc
    · subst h1
      rw [if_pos rfl]
      by_cases h2 : i = p.index f
      · subst h2
        rw [Function.update_same]
        refine ⟨ht, ?_, ?_⟩
        · rw [hb', Function.update_same]
        · rw [Function.update_same]
      · rw [Function.update_noteq h2]
        obtain ⟨he1, he2, he3⟩ := hlist x hx16 hxp i hi
        have hef : p.pieceList x i ≠ f := by
          intro heq
          rw [heq] at he3
          rw [he3] at h2
          exact h2 rfl
        have het : p.pieceList x i ≠ t := by
          intro heq
          rw [heq, hbt0] at he2
          exact isPiece_ne_zero hxp he2.symm
        refine ⟨he1, ?_, ?_⟩
        · rw [hb', Function.update_noteq het, Function.update_noteq hef]
          exact he2
        · rw [Function.update_noteq het]
          exact he3
    · rw [if_neg h1]
      obtain ⟨he1, he2, he3⟩ := hlist x hx16 hxp i hi
      have hef : p.pieceList x i ≠ f := by
        intro heq
        rw [heq, hbf] at he2
        exact h1 he2.symm
      have het : p.pieceList x i ≠ t := by
        intro heq
        rw [heq, hbt0] at he2
        exact isPiece_ne_zero hxp he2.symm
      refine ⟨he1, ?_, ?_⟩
      · rw [hb', Function.update_noteq het, Function.update_noteq hef]
        exact he2
      · rw [Function.update_noteq het]
        exact he3
  · intro u hu
    rw [hboard' u hu]
    by_cases h1 : u = t
    · rw [if_pos h1]
      subst h1
      intro _
      have e1 : q.index u = p.index f := by
        rw [hi', Function.update_same]
      have e3 : q.pieceList pc (p.index f) = u := by
        rw [hl', if_pos rfl, Function.update_same]
      rw [e1, hn', e3]
      exact ⟨hfi, rfl⟩
    · rw [if_neg h1]
      by_cases h2 : u = f
      · rw [if_pos h2]
        intro habs
        exact absurd rfl (isPiece_ne_zero habs)
      · rw [if_neg h2]
        intro hup
        obtain ⟨ho1, ho2⟩ := hocc u hu hup
        have e1 : q.index u = p.index u := by
          rw [hi']
          exact Function.update_noteq h1 _ _
        rw [e1, hn']
        refine ⟨ho1, ?_⟩
        rw [hl']
        by_cases h3 : p.board u = pc
        · rw [if_pos h3]
          have hne : p.index u ≠ p.index f := by
            intro he
            apply h2
            have hu2 := hinj u hu h3
            rw [← hu2.2, he, hfl]
          rw [Function.update_noteq hne]
          rw [h3] at ho2
          exact ho2
        · rw [if_neg h3]
          exact ho2

/-- Equality of the six redundant-view fields; the move applicator's other
fields (clocks, rights, check state) are irrelevant to the ledger invariant. -/
def CoreEq (p q : Position) : Prop :=
  p.board = q.board ∧ p.byTypeBB = q.byTypeBB ∧ p.byColorBB = q.byColorBB ∧
  p.pieceCount = q.pieceCount ∧ p.index = q.index ∧ p.pieceList = q.pieceList

theorem coreEq_refl (p : Position) : CoreEq p p := ⟨rfl, rfl, rfl, rfl, rfl, rfl⟩

theorem coreEq_symm {p q : Position} (h : CoreEq p q) : CoreEq q p := by
  obtain ⟨e1, e2, e3, e4, e5, e6⟩ := h
  exact ⟨e1.symm, e2.symm, e3.symm, e4.symm, e5.symm, e6.symm⟩

theorem coreEq_trans {p q r : Position} (h1 : CoreEq p q) (h2 : CoreEq q r) : CoreEq p r := by
  obtain ⟨e1, e2, e3, e4, e5, e6⟩ := h1
  obtain ⟨g1, g2, g3, g4, g5, g6⟩ := h2
  exact ⟨e1.trans g1, e2.trans g2, e3.trans g3, e4.trans g4, e5.trans g5, e6.trans g6⟩

theorem valid_of_coreEq {p q : Position} (h : CoreEq q p) (hv : Valid p) : Valid q :=
  valid_congr h.1 h.2.1 h.2.2.1 h.2.2.2.1 h.2.2.2.2.1 h.2.2.2.2.2 hv

/-- Clearing the destination ledger entry before a put is invisible: the put
overwrites that entry anyway. -/
theorem coreEq_put_clear (q : Position) (pc s : Nat) :
    CoreEq (put_piece { q with board := Function.update q.board s 0 } pc s)
      (put_piece q pc s) := by
  refine ⟨?_, rfl, rfl, rfl, rfl, rfl⟩
  show Function.update (Function.update q.board s 0) s pc = Function.update q.board s pc
  rw [Function.update_idem]

/-- Clearing the destination ledger entry before a relocation is invisible:
the relocation overwrites that entry anyway. -/
theorem coreEq_move_piece_clear (q : Position) (pc f t : Nat) (hft : f ≠ t) :
    CoreEq (move_piece { q with board := Function.update q.board t 0 } pc f t)
      (move_piece q pc f t) := by
  refine ⟨?_, rfl, rfl, rfl, rfl, rfl⟩
  show Function.update (Function.update (Function.update q.board t 0) f 0) t pc =
    Function.update (Function.update q.board f 0) t pc
  rw [Function.update_comm (Ne.symm hft), Function.update_idem]

/-- Reduction of the move applicator for a normal move without capture: only
the relocation touches the redundant views. -/
theorem move_core_normal {p : Position} {m : Move} (h0 : m.kind = 0)
    (hcap : p.board m.t = 0) :
    CoreEq (move p m) (move_piece p (p.board m.f) m.f m.t) := by
  have hm : m = ⟨m.f, m.t, 0, m.promo⟩ := by rw [← h0]
  rw [hm]
  have c03 : (((0:Nat) = 3)) = False := by simp
  have c02 : (((0:Nat) = 2)) = False := by simp
  have cne3 : (((0:Nat) ≠ 3)) = True := by simp
  have cPromo : ((0:Nat) = 1 ∧ type_of (p.board m.f) = 1) = False := by simp
  have ccap : ((p.board m.t ≠ 0)) = False := by simp [hcap]
  refine ⟨?_, ?_, ?_, ?_, ?_, ?_⟩ <;>
    simp only [move, move_piece, c03, c02, cne3, cPromo, ccap,
      if_false, if_true, ite_false, ite_true, true_and, false_and] <;> rfl

/-- Reduction of the move applicator for a normal capture: removal of the
captured piece followed by the relocation. -/
theorem move_core_capture {p : Position} {m : Move} (h0 : m.kind = 0)
    (hcap : p.board m.t ≠ 0) :
    CoreEq (move p m)
      (move_piece (remove_piece p (p.board m.t) m.t) (p.board m.f) m.f m.t) := by
  have hm : m = ⟨m.f, m.t, 0, m.promo⟩ := by rw [← h0]
  rw [hm]
  have c03 : (((0:Nat) = 3)) = False := by simp
  have c02 : (((0:Nat) = 2)) = False := by simp
  have cne3 : (((0:Nat) ≠ 3)) = True := by simp
  have cPromo : ((0:Nat) = 1 ∧ type_of (p.board m.f) = 1) = False := by simp
  have ccap : ((p.board m.t ≠ 0)) = True := by simp [hcap]
  refine ⟨?_, ?_, ?_, ?_, ?_, ?_⟩ <;>
    simp only [move, move_piece, remove_piece, c03, c02, cne3, cPromo, ccap,
      if_false, if_true, ite_false, ite_true, true_and, false_and] <;> rfl

/-- Reduction of the move applicator for a non-capturing promotion: relocate
the pawn, remove it from the destination, and put the promoted piece there. -/
theorem move_core_promo_nocap {p : Position} {m : Move} (h1 : m.kind = 1)
    (htypef : type_of (p.board m.f) = 1) (hcap : p.board m.t = 0) :
    CoreEq (move p m)
      (put_piece (remove_piece (move_piece p (p.board m.f) m.f m.t) (p.board m.f) m.t)
        (make_piece p.sideToMove m.promo) m.t) := by
  have hm : m = ⟨m.f, m.t, 1, m.promo⟩ := by rw [← h1]
  rw [hm]
  have c03 : (((1:Nat) = 3)) = False := by simp
  have c02 : (((1:Nat) = 2)) = False := by simp
  have cne3 : (((1:Nat) ≠ 3)) = True := by simp
  have cPromo : ((1:Nat) = 1 ∧ type_of (p.board m.f) = 1) = True := by simp [htypef]
  have ccap : ((p.board m.t ≠ 0)) = False := by simp [hcap]
  have ct : (type_of (p.board m.f) = 1) = True := eq_true htypef
  refine ⟨?_, ?_, ?_, ?_, ?_, ?_⟩ <;>
    simp only [move, move_piece, remove_piece, put_piece, c03, c02, cne3, cPromo, ccap,
      ct, if_false, if_true, ite_false, ite_true, true_and, false_and, and_true] <;> rfl

/-- Reduction of the move applicator for a capturing promotion. -/
theorem move_core_promo_cap {p : Position} {m : Move} (h1 : m.kind = 1)
    (htypef : type_of (p.board m.f) = 1) (hcap : p.board m.t ≠ 0) :
    CoreEq (move p m)
      (put_piece (remove_piece
          (move_piece (remove_piece p (p.board m.t) m.t) (p.board m.f) m.f m.t)
          (p.board m.f) m.t)
        (make_piece p.sideToMove m.promo) m.t) := by
  have hm : m = ⟨m.f, m.t, 1, m.promo⟩ := by rw [← h1]
  rw [hm]
  have c03 : (((1:Nat) = 3)) = False := by simp
  have c02 : (((1:Nat) = 2)) = False := by simp
  have cne3 : (((1:Nat) ≠ 3)) = True := by simp
  have cPromo : ((1:Nat) = 1 ∧ type_of (p.board m.f) = 1) = True := by simp [htypef]
  have ccap : ((p.board m.t ≠ 0)) = True := by simp [hcap]
  have ct : (type_of (p.board m.f) = 1) = True := eq_true htypef
  refine ⟨?_, ?_, ?_, ?_, ?_, ?_⟩ <;>
    simp only [move, move_piece, remove_piece, put_piece, c03, c02, cne3, cPromo, ccap,
      ct, if_false, if_true, ite_false, ite_true, true_and, false_and, and_true] <;> rfl

/-- Reduction of the move applicator for an en-passant capture: clear the
captured pawn ledger entry, remove it, and relocate the capturing pawn. -/
theorem move_core_ep {p : Position} {m : Move} (h2 : m.kind = 2) :
    CoreEq (move p m)
      (move_piece { remove_piece p (make_piece (p.sideToMove ^^^ 1) 1)
          (pawn_push_sub p.sideToMove m.t) with
          board := Function.update p.board (pawn_push_sub p.sideToMove m.t) 0 }
        (p.board m.f) m.f m.t) := by
  have hm : m = ⟨m.f, m.t, 2, m.promo⟩ := by rw [← h2]
  rw [hm]
  have c03 : (((2:Nat) = 3)) = False := by simp
  have c02 : (((2:Nat) = 2)) = True := by simp
  have cne3 : (((2:Nat) ≠ 3)) = True := by simp
  have cPromo : ((2:Nat) = 1 ∧ type_of (p.board m.f) = 1) = False := by simp
  have ccap : ((make_piece (p.sideToMove ^^^ 1) 1 ≠ 0)) = True := by
    apply eq_true
    unfold make_piece
    omega
  refine ⟨?_, ?_, ?_, ?_, ?_, ?_⟩ <;>
    simp only [move, move_piece, remove_piece, c03, c02, cne3, cPromo, ccap,
      if_false, if_true, ite_false, ite_true, true_and, false_and] <;> rfl

/-- Reduction of the move applicator for castling: remove king and rook,
clear their ledger entries, and put them on their castle destinations. -/
theorem move_core_castle {p : Position} {m : Move} (h3 : m.kind = 3) :
    CoreEq (move p m)
      (put_piece (put_piece { remove_piece (remove_piece p (make_piece p.sideToMove 6) m.f)
          (make_piece p.sideToMove 4) m.t with
          board := Function.update (Function.update p.board m.f 0) m.t 0 }
        (make_piece p.sideToMove 6)
        (relative_square p.sideToMove (if m.t > m.f then 6 else 2)))
        (make_piece p.sideToMove 4)
        (relative_square p.sideToMove (if m.t > m.f then 5 else 3))) := by
  have hm : m = ⟨m.f, m.t, 3, m.promo⟩ := by rw [← h3]
  rw [hm]
  have c33 : (((3:Nat) = 3)) = True := by simp
  have c32 : (((3:Nat) = 2)) = False := by simp
  have cne3 : (((3:Nat) ≠ 3)) = False := by simp
  have cPromo : ((3:Nat) = 1 ∧ type_of (p.board m.f) = 1) = False := by simp
  have ccap : (((0:Nat) ≠ 0)) = False := by simp
  refine ⟨?_, ?_, ?_, ?_, ?_, ?_⟩ <;>
    simp only [move, do_castling, move_piece, remove_piece, put_piece, c33, c32, cne3,
      cPromo, ccap, if_false, if_true, ite_false, ite_true, true_and, false_and] <;> rfl

/-- The capture chain of a normal or promotion capture preserves the
invariant, and afterwards the moved piece stands on the destination. -/
theorem valid_capture_chain {p : Position} {f t : Nat} (hv : Valid p)
    (hf : f < 64) (ht : t < 64) (hft : f ≠ t) (hpcf : isPiece (p.board f))
    (hcap : p.board t ≠ 0) :
    Valid (move_piece (remove_piece p (p.board t) t) (p.board f) f t) := by
  have hcappc : isPiece (p.board t) := (hv.2.2.1 t ht).resolve_left hcap
  have hrp : Valid { remove_piece p (p.board t) t with
      board := Function.update p.board t 0 } :=
    valid_remove_piece hv ht hcappc rfl
  have hmv : Valid (move_piece { remove_piece p (p.board t) t with
      board := Function.update p.board t 0 } (p.board f) f t) := by
    refine valid_move_piece hrp hf ht hft hpcf ?_ ?_
    · show Function.update p.board t 0 f = p.board f
      rw [Function.update_noteq hft]
    · show Function.update p.board t 0 t = 0
      rw [Function.update_same]
  exact valid_of_coreEq
    (coreEq_symm (coreEq_move_piece_clear (remove_piece p (p.board t) t) (p.board f) f t hft))
    hmv

theorem relative_square_lt {c v : Nat} (hc : c < 2) (hval : v < 64) :
    relative_square c v < 64 := by
  unfold relative_square
  interval_cases c
  · simpa using hval
  · have : (64 : Nat) = 2 ^ 6 := by norm_num
    rw [this]
    exact Nat.xor_lt_two_pow (by omega) (by omega)

theorem relative_square_ne {c a b : Nat} (hab : a ≠ b) :
    relative_square c a ≠ relative_square c b := by
  unfold relative_square
  intro h
  apply hab
  have := congrArg (fun x => x ^^^ (c * 56)) h
  simpa [Nat.xor_cancel_right] using this

/-- Modelled from the spec: structural pseudo-legality of a move — the piece
pattern preconditions under which the applicator is invoked (movegen.h is
absent).  A pseudo-legal move has on-board distinct squares, moves a piece of
the side to move, does not land on a friendly piece, and satisfies the
category-specific board shape (en-passant geometry, castling
king-captures-rook encoding with free target squares, promotion from a
pawn). -/
def MovePre (p : Position) (m : Move) : Prop :=
  m.f < 64 ∧ m.t < 64 ∧ m.f ≠ m.t ∧ p.sideToMove < 2 ∧
  isPiece (p.board m.f) ∧ color_of (p.board m.f) = p.sideToMove ∧
  ((m.kind = 0 ∧ (p.board m.t = 0 ∨ color_of (p.board m.t) ≠ p.sideToMove)) ∨
   (m.kind = 1 ∧ type_of (p.board m.f) = 1 ∧ 2 ≤ m.promo ∧ m.promo ≤ 5 ∧
     (p.board m.t = 0 ∨ color_of (p.board m.t) ≠ p.sideToMove)) ∨
   (m.kind = 2 ∧ p.board m.f = make_piece p.sideToMove 1 ∧ m.t = p.epSquare ∧
     p.board m.t = 0 ∧ pawn_push_sub p.sideToMove m.t < 64 ∧
     p.board (pawn_push_sub p.sideToMove m.t) = make_piece (p.sideToMove ^^^ 1) 1) ∨
   (m.kind = 3 ∧ p.board m.f = make_piece p.sideToMove 6 ∧
     p.board m.t = make_piece p.sideToMove 4 ∧
     (relative_square p.sideToMove (if m.t > m.f then 6 else 2) = m.f ∨
      relative_square p.sideToMove (if m.t > m.f then 6 else 2) = m.t ∨
      p.board (relative_square p.sideToMove (if m.t > m.f then 6 else 2)) = 0) ∧
     (relative_square p.sideToMove (if m.t > m.f then 5 else 3) = m.f ∨
      relative_square p.sideToMove (if m.t > m.f then 5 else 3) = m.t ∨
      p.board (relative_square p.sideToMove (if m.t > m.f then 5 else 3)) = 0)))

instance (p : Position) (m : Move) : Decidable (MovePre p m) := by
  unfold MovePre
  exact inferInstance

/-- One pseudo-legal application of the move applicator preserves the
redundant-view invariant. -/
theorem valid_move {p : Position} {m : Move} (hv : Valid p) (hpre : MovePre p m) :
    Valid (move p m) := by
  obtain ⟨hf64, ht64, hft, hstm, hpcf, hcol, hkind⟩ := hpre
  rcases hkind with ⟨h0, hto⟩ | ⟨h1, htypef, hpr2, hpr5, hto⟩ |
    ⟨h2, hbf2, hept, hbt2, hcap64, hbcap⟩ | ⟨h3, hbfK, hbtR, ht2pre, hrtopre⟩
  · -- NORMAL
    by_cases hcap : p.board m.t = 0
    · exact valid_of_coreEq (move_core_normal h0 hcap)
        (valid_move_piece hv hf64 ht64 hft hpcf rfl hcap)
    · exact valid_of_coreEq (move_core_capture h0 hcap)
        (valid_capture_chain hv hf64 ht64 hft hpcf hcap)
  · -- PROMOTION
    have hpromo : isPiece (make_piece p.sideToMove m.promo) := by
      unfold isPiece make_piece
      omega
    by_cases hcap : p.board m.t = 0
    · have hvm : Valid (move_piece p (p.board m.f) m.f m.t) :=
        valid_move_piece hv hf64 ht64 hft hpcf rfl hcap
      have hmt : (move_piece p (p.board m.f) m.f m.t).board m.t = p.board m.f := by
        show Function.update (Function.update p.board m.f 0) m.t (p.board m.f) m.t = _
        rw [Function.update_same]
      have h1r := valid_remove_piece hvm ht64 hpcf hmt
      have h2p : Valid (put_piece { remove_piece (move_piece p (p.board m.f) m.f m.t)
          (p.board m.f) m.t with
          board := Function.update (move_piece p (p.board m.f) m.f m.t).board m.t 0 }
          (make_piece p.sideToMove m.promo) m.t) := by
        refine valid_put_piece h1r ht64 hpromo ?_
        show Function.update (move_piece p (p.board m.f) m.f m.t).board m.t 0 m.t = 0
        rw [Function.update_same]
      exact valid_of_coreEq (move_core_promo_nocap h1 htypef hcap)
        (valid_of_coreEq
          (coreEq_symm (coreEq_put_clear
            (remove_piece (move_piece p (p.board m.f) m.f m.t) (p.board m.f) m.t)
            (make_piece p.sideToMove m.promo) m.t))
          h2p)
    · have hvm : Valid (move_piece (remove_piece p (p.board m.t) m.t) (p.board m.f) m.f m.t) :=
        valid_capture_chain hv hf64 ht64 hft hpcf hcap
      have hmt : (move_piece (remove_piece p (p.board m.t) m.t) (p.board m.f) m.f m.t).board m.t
          = p.board m.f := by
        show Function.update
          (Function.update (remove_piece p (p.board m.t) m.t).board m.f 0)
          m.t (p.board m.f) m.t = p.board m.f
        rw [Function.update_same]
      have h1r := valid_remove_piece hvm ht64 hpcf hmt
      have h2p : Valid (put_piece { remove_piece
          (move_piece (remove_piece p (p.board m.t) m.t) (p.board m.f) m.f m.t)
          (p.board m.f) m.t with
          board := Function.update
            (move_piece (remove_piece p (p.board m.t) m.t) (p.board m.f) m.f m.t).board m.t 0 }
          (make_piece p.sideToMove m.promo) m.t) := by
        refine valid_put_piece h1r ht64 hpromo ?_
        show Function.update
          (move_piece (remove_piece p (p.board m.t) m.t) (p.board m.f) m.f m.t).board m.t 0 m.t = 0
        rw [Function.update_same]
      exact valid_of_coreEq (move_core_promo_cap h1 htypef hcap)
        (valid_of_coreEq
          (coreEq_symm (coreEq_put_clear
            (remove_piece (move_piece (remove_piece p (p.board m.t) m.t) (p.board m.f) m.f m.t)
              (p.board m.f) m.t)
            (make_piece p.sideToMove m.promo) m.t))
          h2p)
  · -- EN PASSANT
    have hcapf : pawn_push_sub p.sideToMove m.t ≠ m.f := by
      intro he
      rw [← he] at hbf2
      rw [hbf2] at hbcap
      unfold make_piece at hbcap
      have h01 : p.sideToMove = 0 ∨ p.sideToMove = 1 := by omega
      rcases h01 with h | h <;> rw [h] at hbcap <;> exact absurd hbcap (by decide)
    have hcappc : isPiece (make_piece (p.sideToMove ^^^ 1) 1) := by
      unfold isPiece make_piece
      have : p.sideToMove ^^^ 1 < 2 := by
        have h01 : p.sideToMove = 0 ∨ p.sideToMove = 1 := by omega
        rcases h01 with h | h <;> simp [h]
      omega
    have hrp : Valid { remove_piece p (make_piece (p.sideToMove ^^^ 1) 1)
        (pawn_push_sub p.sideToMove m.t) with
        board := Function.update p.board (pawn_push_sub p.sideToMove m.t) 0 } :=
      valid_remove_piece hv hcap64 hcappc hbcap
    have hmv : Valid (move_piece { remove_piece p (make_piece (p.sideToMove ^^^ 1) 1)
        (pawn_push_sub p.sideToMove m.t) with
        board := Function.update p.board (pawn_push_sub p.sideToMove m.t) 0 }
        (p.board m.f) m.f m.t) := by
      refine valid_move_piece hrp hf64 ht64 hft hpcf ?_ ?_
      · show Function.update p.board (pawn_push_sub p.sideToMove m.t) 0 m.f = p.board m.f
        rw [Function.update_noteq (Ne.symm hcapf)]
      · show Function.update p.board (pawn_push_sub p.sideToMove m.t) 0 m.t = 0
        by_cases he : m.t = pawn_push_sub p.sideToMove m.t
        · rw [← he, Function.update_same]
        · rw [Function.update_noteq he]
          exact hbt2
    exact valid_of_coreEq (move_core_ep h2) hmv
  · -- CASTLING
    have hK : isPiece (make_piece p.sideToMove 6) := by
      unfold isPiece make_piece
      omega
    have hR : isPiece (make_piece p.sideToMove 4) := by
      unfold isPiece make_piece
      omega
    set t2 := relative_square p.sideToMove (if m.t > m.f then 6 else 2) with ht2def
    set rto := relative_square p.sideToMove (if m.t > m.f then 5 else 3) with hrtodef
    have ht2lt : t2 < 64 := by
      rw [ht2def]
      exact relative_square_lt hstm (by split <;> omega)
    have hrtolt : rto < 64 := by
      rw [hrtodef]
      exact relative_square_lt hstm (by split <;> omega)
    have ht2rto : t2 ≠ rto := by
      rw [ht2def, hrtodef]
      exact relative_square_ne (by split <;> omega)
    have hv1 : Valid { remove_piece p (make_piece p.sideToMove 6) m.f with
        board := Function.update p.board m.f 0 } :=
      valid_remove_piece hv hf64 hK hbfK
    have hv2 : Valid { remove_piece (remove_piece p (make_piece p.sideToMove 6) m.f)
        (make_piece p.sideToMove 4) m.t with
        board := Function.update (Function.update p.board m.f 0) m.t 0 } := by
      have step := valid_remove_piece hv1 ht64 hR
        (by
          show Function.update p.board m.f 0 m.t = make_piece p.sideToMove 4
          rw [Function.update_noteq (Ne.symm hft)]
          exact hbtR)
      exact step
    set p3c := { remove_piece (remove_piece p (make_piece p.sideToMove 6) m.f)
        (make_piece p.sideToMove 4) m.t with
        board := Function.update (Function.update p.board m.f 0) m.t 0 } with hp3c
    have hboard3 : ∀ u, p3c.board u =
        if u = m.t then 0 else if u = m.f then 0 else p.board u := by
      intro u
      show Function.update (Function.update p.board m.f 0) m.t 0 u = _
      by_cases hu1 : u = m.t
      · subst hu1
        rw [Function.update_same, if_pos rfl]
      · rw [Function.update_noteq hu1, if_neg hu1]
        by_cases hu2 : u = m.f
        · subst hu2
          rw [Function.update_same, if_pos rfl]
        · rw [Function.update_noteq hu2, if_neg hu2]
    have hv3 : Valid (put_piece p3c (make_piece p.sideToMove 6) t2) := by
      refine valid_put_piece hv2 ht2lt hK ?_
      rw [hboard3 t2]
      rcases ht2pre with he | he | he
      · rw [if_neg (by rw [he]; exact hft), if_pos he]
      · rw [if_pos he]
      · by_cases hu1 : t2 = m.t
        · rw [if_pos hu1]
        · rw [if_neg hu1]
          by_cases hu2 : t2 = m.f
          · rw [if_pos hu2]
          · rw [if_neg hu2]
            exact he
    have hv4 : Valid (put_piece (put_piece p3c (make_piece p.sideToMove 6) t2)
        (make_piece p.sideToMove 4) rto) := by
      refine valid_put_piece hv3 hrtolt hR ?_
      show Function.update p3c.board t2 (make_piece p.sideToMove 6) rto = 0
      rw [Function.update_noteq (Ne.symm ht2rto), hboard3 rto]
      rcases hrtopre with he | he | he
      · rw [if_neg (by rw [he]; exact hft), if_pos he]
      · rw [if_pos he]
      · by_cases hu1 : rto = m.t
        · rw [if_pos hu1]
        · rw [if_neg hu1]
          by_cases hu2 : rto = m.f
          · rw [if_pos hu2]
          · rw [if_neg hu2]
            exact he
    exact valid_of_coreEq (move_core_castle h3) hv4

/-- A sequence of moves in which every move is structurally pseudo-legal and
passes the legality oracle at its turn. -/
def LegalSeq : Position → List Move → Prop
  | _, [] => True
  | p, m :: ms => MovePre p m ∧ legal p m = true ∧ LegalSeq (move p m) ms

instance instDecLegalSeq : (ms : List Move) → (p : Position) → Decidable (LegalSeq p ms)
  | [], _ => isTrue trivial
  | m :: ms, p =>
    haveI := instDecLegalSeq ms (move p m)
    inferInstanceAs (Decidable (MovePre p m ∧ legal p m = true ∧ LegalSeq (move p m) ms))

theorem valid_applyMoves {ms : List Move} : ∀ {p : Position},
    Valid p → LegalSeq p ms → Valid (applyMoves p ms) := by
  induction ms with
  | nil => intro p hv _; exact hv
  | cons m ms ih =>
    intro p hv hs
    obtain ⟨hpre, -, hrest⟩ := hs
    exact ih (valid_move hv hpre) hrest

theorem testBit_false_of_ge {x i : Nat} (h : x < 2 ^ 64) (hi : 64 ≤ i) :
    x.testBit i = false :=
  Nat.testBit_lt_two_pow (lt_of_lt_of_le h (Nat.pow_le_pow_right (by norm_num) hi))

/-- The ledger agreement stated by the spec: the aggregate occupancy equals
the union of the two color masks and the union of the six role masks, every
square below 64 is set in exactly the masks matching its ledger entry (none
when empty), the piece list and reverse index agree on every occupied square,
and every piece count equals the popcount of that piece's occupancy mask. -/
def LedgerAgreement (q : Position) : Prop :=
  pieces q = piecesC q 0 ||| piecesC q 1 ∧
  pieces q = piecesT q 1 ||| piecesT q 2 ||| piecesT q 3 ||| piecesT q 4 |||
    piecesT q 5 ||| piecesT q 6 ∧
  (∀ s < 64, (pieces q).testBit s = decide (q.board s ≠ 0)) ∧
  (∀ s < 64, ∀ c < 2, (piecesC q c).testBit s =
    decide (q.board s ≠ 0 ∧ color_of (q.board s) = c)) ∧
  (∀ s < 64, ∀ t, 1 ≤ t → t < 7 → (piecesT q t).testBit s =
    decide (q.board s ≠ 0 ∧ type_of (q.board s) = t)) ∧
  (∀ s < 64, isPiece (q.board s) → q.pieceList (q.board s) (q.index s) = s) ∧
  (∀ pc < 16, isPiece pc →
    q.pieceCount pc = popcount (piecesCT q (color_of pc) (type_of pc)))

instance (q : Position) : Decidable (LedgerAgreement q) := by
  unfold LedgerAgreement
  exact inferInstance

theorem popcount_piecesCT {q : Position} (hv : Valid q) {pc : Nat}
    (hpc : isPiece pc) :
    popcount (piecesCT q (color_of pc) (type_of pc)) = countBoard q.board pc := by
  obtain ⟨hbt, hbc, hbp, hm0, hmc, hmt, hcnt, hlist, hocc⟩ := hv
  have htr := type_of_range hpc
  have hclt := color_of_lt hpc.1
  unfold popcount countBoard piecesCT
  congr 1
  apply Finset.filter_congr
  intro s hs
  have hs64 := Finset.mem_range.mp hs
  rw [Nat.testBit_and, hmc s hs64 _ hclt, hmt s hs64 _ htr.1 htr.2]
  by_cases hb : q.board s = pc
  · simp [hb, isPiece_ne_zero hpc]
  · constructor
    · intro hcontra
      rcases (Bool.and_eq_true _ _).mp hcontra with ⟨hc1, hc2⟩
      obtain ⟨hb1, hb2⟩ := of_decide_eq_true hc1
      obtain ⟨-, hb3⟩ := of_decide_eq_true hc2
      exfalso
      apply hb
      have hlt : q.board s < 16 := ((hbp s hs64).resolve_left hb1).1
      rw [← make_piece_eta hlt, hb2, hb3, make_piece_eta hpc.1]
    · intro h
      exact absurd h hb

theorem valid_ledgerAgreement {q : Position} (hv : Valid q) : LedgerAgreement q := by
  have hvKeep := hv
  obtain ⟨hbt, hbc, hbp, hm0, hmc, hmt, hcnt, hlist, hocc⟩ := hv
  refine ⟨?_, ?_, ?_, ?_, ?_, ?_, ?_⟩
  · -- aggregate = union of colors
    apply Nat.eq_of_testBit_eq
    intro i
    show (q.byTypeBB 0).testBit i = (q.byColorBB 0 ||| q.byColorBB 1).testBit i
    rw [Nat.testBit_or]
    by_cases hi : i < 64
    · rw [hm0 i hi, hmc i hi 0 (by norm_num), hmc i hi 1 (by norm_num)]
      rcases hbp i hi with h | h
      · simp [h]
      · have hc := color_of_lt h.1
        have h01 : color_of (q.board i) = 0 ∨ color_of (q.board i) = 1 := by omega
        rcases h01 with h0 | h0 <;> simp [h0, isPiece_ne_zero h]
    · push_neg at hi
      rw [testBit_false_of_ge (hbt 0 (by norm_num)) hi,
        testBit_false_of_ge (hbc 0 (by norm_num)) hi,
        testBit_false_of_ge (hbc 1 (by norm_num)) hi]
      rfl
  · -- aggregate = union of roles
    apply Nat.eq_of_testBit_eq
    intro i
    show (q.byTypeBB 0).testBit i =
      (q.byTypeBB 1 ||| q.byTypeBB 2 ||| q.byTypeBB 3 ||| q.byTypeBB 4 |||
       q.byTypeBB 5 ||| q.byTypeBB 6).testBit i
    simp only [Nat.testBit_or]
    by_cases hi : i < 64
    · rw [hm0 i hi, hmt i hi 1 (by norm_num) (by norm_num),
        hmt i hi 2 (by norm_num) (by norm_num), hmt i hi 3 (by norm_num) (by norm_num),
        hmt i hi 4 (by norm_num) (by norm_num), hmt i hi 5 (by norm_num) (by norm_num),
        hmt i hi 6 (by norm_num) (by norm_num)]
      rcases hbp i hi with h | h
      · simp [h]
      · have htr := type_of_range h
        have h16 : type_of (q.board i) = 1 ∨ type_of (q.board i) = 2 ∨
            type_of (q.board i) = 3 ∨ type_of (q.board i) = 4 ∨
            type_of (q.board i) = 5 ∨ type_of (q.board i) = 6 := by omega
        rcases h16 with h0 | h0 | h0 | h0 | h0 | h0 <;> simp [h0, isPiece_ne_zero h]
    · push_neg at hi
      rw [testBit_false_of_ge (hbt 0 (by norm_num)) hi,
        testBit_false_of_ge (hbt 1 (by norm_num)) hi,
        testBit_false_of_ge (hbt 2 (by norm_num)) hi,
        testBit_false_of_ge (hbt 3 (by norm_num)) hi,
        testBit_false_of_ge (hbt 4 (by norm_num)) hi,
        testBit_false_of_ge (hbt 5 (by norm_num)) hi,
        testBit_false_of_ge (hbt 6 (by norm_num)) hi]
      rfl
  · exact hm0
  · exact hmc
  · exact hmt
  · intro s hs hp
    exact (hocc s hs hp).2
  · intro pc hpc16 hpcp
    rw [popcount_piecesCT hvKeep hpcp]
    exact hcnt pc hpc16 hpcp

/-- Claim C2: after any sequence of pseudo-legal moves accepted by the
legality oracle, starting from a position satisfying the redundant-view
invariant, the aggregate occupancy mask equals the union of the two color
masks and the union of the six role masks, every square is set in exactly the
masks matching its ledger entry (in none when empty), `pieceList[pc][index s]
= s` for every occupied square, and every piece count equals the popcount of
that piece's occupancy mask. -/
theorem apply_sequence_ledger_agreement (p : Position) (ms : List Move)
    (hv : Valid p) (hs : LegalSeq p ms) : LedgerAgreement (applyMoves p ms) :=
  valid_ledgerAgreement (valid_applyMoves hv hs)

set_option maxRecDepth 200000 in
set_option maxHeartbeats 4000000 in
/-- Witness for claim C2: the decoded standard start position is valid, the
knight development g1-f3 is a pseudo-legal move accepted by the oracle, and
the ledger agreement holds after applying it. -/
theorem apply_sequence_ledger_agreement_witness :
    Valid (fen_set startFEN) ∧
    LegalSeq (fen_set startFEN) [⟨6, 21, 0, 0⟩] ∧
    LedgerAgreement (applyMoves (fen_set startFEN) [⟨6, 21, 0, 0⟩]) :=
  ⟨by decide, by decide,
    apply_sequence_ledger_agreement (fen_set startFEN) [⟨6, 21, 0, 0⟩]
      (by decide) (by decide)⟩

/-- Bare-kings position whose decoded halfmove clock already reads exactly 50,
the state the claim describes after 50 quiet moves from a clock of 0. -/
def c4pos : Position := fen_set "k7/8/8/8/8/8/8/7K w - - 50 1".toList

set_option maxRecDepth 100000 in
set_option maxHeartbeats 1000000 in
/-- Claim C4: every normal move that neither captures nor moves a pawn
advances the halfmove clock by exactly one, so 50 consecutive such moves from
a clock of 0 leave the clock at exactly 50 — but the draw-by-move-rule query
compares with strict `rule50 > 50`, so a position whose clock reads exactly 50
still answers false, and only the 51st quiet move makes it answer true. -/
theorem fifty_quiet_moves_not_yet_draw :
    (∀ p : Position, ∀ m : Move, m.kind = 0 → type_of (p.board m.f) ≠ 1 →
      p.board m.t = 0 → (move p m).rule50 = p.rule50 + 1) ∧
    (∀ q : Position, is_draw q = true ↔ 50 < q.rule50) ∧
    c4pos.rule50 = 50 ∧ is_draw c4pos = false ∧
    (move c4pos ⟨7, 6, 0, 0⟩).rule50 = 51 ∧
    is_draw (move c4pos ⟨7, 6, 0, 0⟩) = true := by
  refine ⟨?_, ?_, by decide, by decide, by decide, by decide⟩
  · intro p m h0 hpawn hcap
    have hm : m = ⟨m.f, m.t, 0, m.promo⟩ := by rw [← h0]
    rw [hm]
    have c03 : (((0:Nat) = 3)) = False := by simp
    have c02 : (((0:Nat) = 2)) = False := by simp
    have cne3 : (((0:Nat) ≠ 3)) = True := by simp
    have cPromo : ((0:Nat) = 1 ∧ type_of (p.board m.f) = 1) = False := by simp
    have ccap : ((p.board m.t ≠ 0)) = False := by simp [hcap]
    have ct : (type_of (p.board m.f) = 1) = False := by simp [hpawn]
    have c01 : (((0:Nat) = 1)) = False := by simp
    simp only [move, move_piece, c03, c02, c01, cne3, cPromo, ccap, ct,
      if_false, if_true, ite_false, ite_true, true_and, false_and, and_false,
      and_true] <;> rfl
  · intro q
    simp [is_draw]

/-- Claim C5 (amended): removing piece pc from square s updates the masks,
the count and the list/index ledger together — afterwards every occupancy
mask excludes s, the count is decremented and no live list slot holds s —
but the board array itself is left untouched and still reports pc on s. -/
theorem remove_piece_views (p : Position) (pc s : Nat) (hv : Valid p)
    (hs : s < 64) (hpc : isPiece pc) (hb : p.board s = pc) :
    (remove_piece p pc s).board s = pc ∧
    (pieces (remove_piece p pc s)).testBit s = false ∧
    (piecesC (remove_piece p pc s) (color_of pc)).testBit s = false ∧
    (piecesT (remove_piece p pc s) (type_of pc)).testBit s = false ∧
    (remove_piece p pc s).pieceCount pc = p.pieceCount pc - 1 ∧
    (∀ i < (remove_piece p pc s).pieceCount pc,
      (remove_piece p pc s).pieceList pc i ≠ s) := by
  have hv' := valid_remove_piece hv hs hpc hb
  obtain ⟨-, -, -, -, -, -, -, hlist', -⟩ := hv'
  obtain ⟨hbt, hbc, hbp, hm0, hmc, hmt, hcnt, hlist, hocc⟩ := hv
  have htr := type_of_range hpc
  have hclt := color_of_lt hpc.1
  have hagg : make_piece (color_of pc) 0 ≠ pc := by
    have := make_piece_eta hpc.1
    have := htr.1
    unfold make_piece at *
    omega
  have htpc0 : (0 : Nat) ≠ type_of pc := by omega
  refine ⟨hb, ?_, ?_, ?_, ?_, ?_⟩
  · have h1 : (remove_piece p pc s).byTypeBB 0 = p.byTypeBB 0 ^^^ (1 <<< s) := by
      show Function.update (Function.update p.byTypeBB 0 (p.byTypeBB 0 ^^^ (1 <<< s)))
        (type_of pc) _ 0 = _
      rw [Function.update_noteq htpc0, Function.update_same]
    show ((remove_piece p pc s).byTypeBB 0).testBit s = false
    rw [h1, testBit_xor_bit, hm0 s hs]
    simp [hb, isPiece_ne_zero hpc]
  · have h1 : (remove_piece p pc s).byColorBB (color_of pc) =
        p.byColorBB (color_of pc) ^^^ (1 <<< s) := by
      show Function.update p.byColorBB (color_of pc) _ (color_of pc) = _
      rw [Function.update_same]
    show ((remove_piece p pc s).byColorBB (color_of pc)).testBit s = false
    rw [h1, testBit_xor_bit, hmc s hs (color_of pc) hclt]
    simp [hb, isPiece_ne_zero hpc]
  · have h1 : (remove_piece p pc s).byTypeBB (type_of pc) =
        p.byTypeBB (type_of pc) ^^^ (1 <<< s) := by
      show Function.update (Function.update p.byTypeBB 0 (p.byTypeBB 0 ^^^ (1 <<< s)))
        (type_of pc) _ (type_of pc) = _
      rw [Function.update_same, Function.update_noteq (Ne.symm htpc0)]
    show ((remove_piece p pc s).byTypeBB (type_of pc)).testBit s = false
    rw [h1, testBit_xor_bit, hmt s hs (type_of pc) htr.1 htr.2]
    simp [hb, isPiece_ne_zero hpc]
  · show Function.update (Function.update p.pieceCount pc (p.pieceCount pc - 1))
      (make_piece (color_of pc) 0) _ pc = p.pieceCount pc - 1
    rw [Function.update_noteq (Ne.symm hagg), Function.update_same]
  · intro i hi he
    have h2 : Function.update p.board s 0 ((remove_piece p pc s).pieceList pc i) = pc :=
      (hlist' pc hpc.1 hpc i hi).2.1
    rw [he, Function.update_same] at h2
    exact isPiece_ne_zero hpc h2.symm

set_option maxRecDepth 100000 in
set_option maxHeartbeats 1000000 in
/-- Witness for claim C5: removing the white knight from b1 of the decoded
start position exercises the amended view contract at a concrete input. -/
theorem remove_piece_views_witness :
    (remove_piece (fen_set startFEN) 2 1).board 1 = 2 ∧
    (pieces (remove_piece (fen_set startFEN) 2 1)).testBit 1 = false ∧
    (piecesC (remove_piece (fen_set startFEN) 2 1) (color_of 2)).testBit 1 = false ∧
    (piecesT (remove_piece (fen_set startFEN) 2 1) (type_of 2)).testBit 1 = false ∧
    (remove_piece (fen_set startFEN) 2 1).pieceCount 2 =
      (fen_set startFEN).pieceCount 2 - 1 ∧
    (∀ i < (remove_piece (fen_set startFEN) 2 1).pieceCount 2,
      (remove_piece (fen_set startFEN) 2 1).pieceList 2 i ≠ 1) :=
  remove_piece_views (fen_set startFEN) 2 1 (by decide) (by decide) (by decide)
    (by decide)

set_option maxRecDepth 100000 in
set_option maxHeartbeats 1000000 in
/-- Counterexample for claim C5: after removing the white knight from b1 the
ledger array does not report the square as empty — the board entry is stale
while the aggregate mask already excludes the square. -/
theorem remove_piece_board_stale :
    (remove_piece (fen_set startFEN) 2 1).board 1 ≠ 0 ∧
    (pieces (remove_piece (fen_set startFEN) 2 1)).testBit 1 = false :=
  ⟨by decide, by decide⟩

theorem stepSq_lt {s : Nat} {d : Int × Int} {u : Nat} (h : stepSq s d = some u) :
    u < 64 := by
  simp only [stepSq] at h
  split at h
  · rename_i hc
    rw [Option.some.injEq] at h
    omega
  · cases h

theorem stepSq_rev {s : Nat} {d : Int × Int} {u : Nat} (hs : s < 64)
    (h : stepSq s d = some u) : stepSq u (-d.1, -d.2) = some s := by
  simp only [stepSq] at h ⊢
  split at h
  · rename_i hc
    rw [Option.some.injEq] at h
    split
    · rename_i hc2
      rw [Option.some.injEq]
      omega
    · rename_i hc2
      exfalso
      apply hc2
      refine ⟨?_, ?_, ?_, ?_⟩ <;> omega
  · cases h

theorem stepN_one (s : Nat) (d : Int × Int) : stepN 1 s d = stepSq s d := by
  show (match stepSq s d with | some u => stepN 0 u d | none => none) = stepSq s d
  cases stepSq s d <;> rfl

theorem stepN_add {d : Int × Int} :
    ∀ {a : Nat} {s u : Nat}, stepN a s d = some u → ∀ b, stepN (a + b) s d = stepN b u d := by
  intro a
  induction a with
  | zero =>
    intro s u h b
    rw [show (stepN 0 s d = some u) = (some s = some u) from rfl, Option.some.injEq] at h
    rw [h, Nat.zero_add]
  | succ a ih =>
    intro s u h b
    rw [show a + 1 + b = (a + b) + 1 from by omega]
    cases hsq : stepSq s d with
    | none =>
      rw [show stepN (a + 1) s d =
        (match stepSq s d with | some v => stepN a v d | none => none) from rfl, hsq] at h
      cases h
    | some v =>
      rw [show stepN (a + 1) s d =
        (match stepSq s d with | some v => stepN a v d | none => none) from rfl, hsq] at h
      rw [show stepN (a + b + 1) s d =
        (match stepSq s d with | some v => stepN (a + b) v d | none => none) from rfl, hsq]
      exact ih h b

theorem stepN_none_add {d : Int × Int} :
    ∀ {a : Nat} {s : Nat}, stepN a s d = none → ∀ b, stepN (a + b) s d = none := by
  intro a
  induction a with
  | zero =>
    intro s h b
    cases h
  | succ a ih =>
    intro s h b
    rw [show a + 1 + b = (a + b) + 1 from by omega]
    cases hsq : stepSq s d with
    | none =>
      rw [show stepN (a + b + 1) s d =
        (match stepSq s d with | some v => stepN (a + b) v d | none => none) from rfl, hsq]
    | some v =>
      rw [show stepN (a + 1) s d =
        (match stepSq s d with | some v => stepN a v d | none => none) from rfl, hsq] at h
      rw [show stepN (a + b + 1) s d =
        (match stepSq s d with | some v => stepN (a + b) v d | none => none) from rfl, hsq]
      exact ih h b

theorem stepN_prefix {d : Int × Int} {k s t : Nat} (h : stepN k s d = some t) :
    ∀ j, j ≤ k → ∃ u, stepN j s d = some u := by
  intro j hj
  cases hu : stepN j s d with
  | none =>
    have := stepN_none_add hu (k - j)
    rw [show j + (k - j) = k from by omega, h] at this
    cases this
  | some u => exact ⟨u, rfl⟩

theorem stepN_lt {d : Int × Int} :
    ∀ {k s t : Nat}, 1 ≤ k → stepN k s d = some t → t < 64 := by
  intro k
  induction k with
  | zero => intro s t hk; omega
  | succ k ih =>
    intro s t _ h
    cases hsq : stepSq s d with
    | none =>
      rw [show stepN (k + 1) s d =
        (match stepSq s d with | some v => stepN k v d | none => none) from rfl, hsq] at h
      cases h
    | some v =>
      rw [show stepN (k + 1) s d =
        (match stepSq s d with | some v => stepN k v d | none => none) from rfl, hsq] at h
      rcases Nat.eq_zero_or_pos k with rfl | hk
      · rw [show (stepN 0 v d = some t) = (some v = some t) from rfl,
          Option.some.injEq] at h
        rw [← h]
        exact stepSq_lt hsq
      · exact ih hk h

theorem stepN_rev {d : Int × Int} :
    ∀ {k s t : Nat}, s < 64 → stepN k s d = some t →
      stepN k t (-d.1, -d.2) = some s := by
  intro k
  induction k with
  | zero =>
    intro s t _ h
    rw [show (stepN 0 s d = some t) = (some s = some t) from rfl, Option.some.injEq] at h
    rw [← h]
    rfl
  | succ k ih =>
    intro s t hs h
    cases hsq : stepSq s d with
    | none =>
      rw [show stepN (k + 1) s d =
        (match stepSq s d with | some v => stepN k v d | none => none) from rfl, hsq] at h
      cases h
    | some v =>
      rw [show stepN (k + 1) s d =
        (match stepSq s d with | some v => stepN k v d | none => none) from rfl, hsq] at h
      have hrev : stepN k t (-d.1, -d.2) = some v := ih (stepSq_lt hsq) h
      have := stepN_add hrev 1
      rw [this, stepN_one]
      exact stepSq_rev hs hsq

theorem rayWalk_mem (occ : Bitboard) (d : Int × Int) :
    ∀ (fuel s t : Nat), ((rayWalk fuel s d occ).testBit t = true ↔
      ∃ k, 1 ≤ k ∧ k ≤ fuel ∧ stepN k s d = some t ∧
        ∀ j, 1 ≤ j → j < k → ∀ u, stepN j s d = some u → occ.testBit u = false) := by
  intro fuel
  induction fuel with
  | zero =>
    intro s t
    simp only [rayWalk, Nat.zero_testBit]
    constructor
    · intro h; cases h
    · rintro ⟨k, hk1, hk0, -, -⟩; omega
  | succ fuel ih =>
    intro s t
    cases hsq : stepSq s d with
    | none =>
      simp only [rayWalk, hsq, Nat.zero_testBit]
      constructor
      · intro h; cases h
      · rintro ⟨k, hk1, -, hpath, -⟩
        obtain ⟨k', rfl⟩ : ∃ k', k = k' + 1 := ⟨k - 1, by omega⟩
        rw [show stepN (k' + 1) s d =
          (match stepSq s d with | some v => stepN k' v d | none => none) from rfl,
          hsq] at hpath
        cases hpath
    | some u =>
      have hstep1 : stepN 1 s d = some u := by rw [stepN_one, hsq]
      simp only [rayWalk, hsq, Nat.testBit_or, testBit_one_shiftLeft]
      constructor
      · intro h
        rcases Bool.or_eq_true _ _ |>.mp h with h | h
        · have hut : u = t := of_decide_eq_true h
          subst hut
          exact ⟨1, le_refl 1, by omega, hstep1, by omega⟩
        · by_cases hocc : occ.testBit u = true
          · rw [if_pos hocc] at h
            rw [Nat.zero_testBit] at h
            cases h
          · rw [if_neg hocc] at h
            obtain ⟨k, hk1, hkf, hpath, hfree⟩ := (ih u t).mp h
            refine ⟨k + 1, by omega, by omega, ?_, ?_⟩
            · have := stepN_add hstep1 k
              rw [Nat.add_comm] at this
              rw [this]
              exact hpath
            · intro j hj1 hjk u' hu'
              obtain ⟨j', rfl⟩ : ∃ j', j = j' + 1 := ⟨j - 1, by omega⟩
              rcases Nat.eq_zero_or_pos j' with rfl | hj'
              · rw [stepN_one, hsq, Option.some.injEq] at hu'
                rw [← hu']
                exact Bool.not_eq_true _ |>.mp hocc
              · have := stepN_add hstep1 j'
                rw [Nat.add_comm] at this
                rw [this] at hu'
                exact hfree j' hj' (by omega) u' hu'
      · rintro ⟨k, hk1, hkf, hpath, hfree⟩
        obtain ⟨k', rfl⟩ : ∃ k', k = k' + 1 := ⟨k - 1, by omega⟩
        have hrest : stepN k' u d = some t := by
          have := stepN_add hstep1 k'
          rw [Nat.add_comm] at this
          rw [← this]
          exact hpath
        rcases Nat.eq_zero_or_pos k' with rfl | hk'pos
        · have hut : u = t := by
            rw [show (stepN 0 u d = some t) = (some u = some t) from rfl,
              Option.some.injEq] at hrest
            exact hrest
          apply (Bool.or_eq_true _ _).mpr
          left
          simp [hut]
        · have hoccu : occ.testBit u = false := hfree 1 (le_refl 1) (by omega) u hstep1
          apply (Bool.or_eq_true _ _).mpr
          right
          rw [if_neg (by simp [hoccu])]
          apply (ih u t).mpr
          refine ⟨k', hk'pos, by omega, hrest, ?_⟩
          intro j hj1 hjk u' hu'
          have := stepN_add hstep1 j
          rw [Nat.add_comm] at this
          rw [← this] at hu'
          exact hfree (j + 1) (by omega) (by omega) u' hu'

theorem rayWalk_rev {s t : Nat} (hs : s < 64) (d : Int × Int) (occ : Bitboard)
    (h : (rayWalk 8 s d occ).testBit t = true) :
    (rayWalk 8 t (-d.1, -d.2) occ).testBit s = true := by
  obtain ⟨k, hk1, hk8, hpath, hfree⟩ := (rayWalk_mem occ d 8 s t).mp h
  apply (rayWalk_mem occ (-d.1, -d.2) 8 t s).mpr
  refine ⟨k, hk1, hk8, stepN_rev hs hpath, ?_⟩
  intro j hj1 hjk u hu
  obtain ⟨u', hu'⟩ := stepN_prefix hpath (k - j) (by omega)
  have hseg : stepN j u' d = some t := by
    have := stepN_add hu' j
    rw [show k - j + j = k from by omega] at this
    rw [← this]
    exact hpath
  have hu'lt : u' < 64 := by
    rcases Nat.eq_zero_or_pos (k - j) with h0 | hpos
    · omega
    · exact stepN_lt hpos hu'
  have hrev : stepN j t (-d.1, -d.2) = some u' := stepN_rev hu'lt hseg
  rw [hu, Option.some.injEq] at hrev
  rw [hrev]
  exact hfree (k - j) (by omega) (by omega) u' hu'

theorem slide_cons (s : Nat) (d : Int × Int) (ds : List (Int × Int)) (occ : Bitboard) :
    slide s (d :: ds) occ = rayWalk 8 s d occ ||| slide s ds occ := rfl

theorem slide_mem (s : Nat) (occ : Bitboard) :
    ∀ (ds : List (Int × Int)) (t : Nat),
      ((slide s ds occ).testBit t = true ↔
        ∃ d ∈ ds, (rayWalk 8 s d occ).testBit t = true) := by
  intro ds
  induction ds with
  | nil =>
    intro t
    simp [slide, Nat.zero_testBit]
  | cons d ds ih =>
    intro t
    rw [slide_cons, Nat.testBit_or]
    constructor
    · intro h
      rcases Bool.or_eq_true _ _ |>.mp h with h | h
      · exact ⟨d, List.mem_cons_self d ds, h⟩
      · obtain ⟨d', hd', h'⟩ := (ih t).mp h
        exact ⟨d', List.mem_cons_of_mem d hd', h'⟩
    · rintro ⟨d', hd', h'⟩
      apply (Bool.or_eq_true _ _).mpr
      rcases List.mem_cons.mp hd' with rfl | hd'
      · exact Or.inl h'
      · exact Or.inr ((ih t).mpr ⟨d', hd', h'⟩)

theorem rook_attacks_symm {s t : Nat} (hs : s < 64) (ht : t < 64) (occ : Bitboard) :
    (attacks_bb_rook s occ).testBit t = (attacks_bb_rook t occ).testBit s := by
  have hneg : ∀ d ∈ orthDirs, (-d.1, -d.2) ∈ orthDirs := by decide
  have him : ∀ {a b : Nat}, a < 64 →
      (attacks_bb_rook a occ).testBit b = true →
      (attacks_bb_rook b occ).testBit a = true := by
    intro a b ha h
    obtain ⟨d, hd, hray⟩ := (slide_mem a occ orthDirs b).mp h
    exact (slide_mem b occ orthDirs a).mpr ⟨(-d.1, -d.2), hneg d hd, rayWalk_rev ha d occ hray⟩
  cases h1 : (attacks_bb_rook s occ).testBit t with
  | true => exact (him hs h1).symm
  | false =>
    cases h2 : (attacks_bb_rook t occ).testBit s with
    | true => rw [him ht h2] at h1; cases h1
    | false => rfl

theorem bishop_attacks_symm {s t : Nat} (hs : s < 64) (ht : t < 64) (occ : Bitboard) :
    (attacks_bb_bishop s occ).testBit t = (attacks_bb_bishop t occ).testBit s := by
  have hneg : ∀ d ∈ diagDirs, (-d.1, -d.2) ∈ diagDirs := by decide
  have him : ∀ {a b : Nat}, a < 64 →
      (attacks_bb_bishop a occ).testBit b = true →
      (attacks_bb_bishop b occ).testBit a = true := by
    intro a b ha h
    obtain ⟨d, hd, hray⟩ := (slide_mem a occ diagDirs b).mp h
    exact (slide_mem b occ diagDirs a).mpr ⟨(-d.1, -d.2), hneg d hd, rayWalk_rev ha d occ hray⟩
  cases h1 : (attacks_bb_bishop s occ).testBit t with
  | true => exact (him hs h1).symm
  | false =>
    cases h2 : (attacks_bb_bishop t occ).testBit s with
    | true => rw [him ht h2] at h1; cases h1
    | false => rfl

theorem stepBB_cons (s : Nat) (d : Int × Int) (ds : List (Int × Int)) :
    stepBB s (d :: ds) =
      (match stepSq s d with
       | some u => (1 <<< u) ||| stepBB s ds
       | none => stepBB s ds) := rfl

theorem stepBB_mem (s : Nat) :
    ∀ (ds : List (Int × Int)) (t : Nat),
      ((stepBB s ds).testBit t = true ↔ ∃ d ∈ ds, stepSq s d = some t) := by
  intro ds
  induction ds with
  | nil =>
    intro t
    simp [stepBB, Nat.zero_testBit]
  | cons d ds ih =>
    intro t
    rw [stepBB_cons]
    cases hsq : stepSq s d with
    | none =>
      rw [ih t]
      constructor
      · rintro ⟨d', hd', h'⟩
        exact ⟨d', List.mem_cons_of_mem d hd', h'⟩
      · rintro ⟨d', hd', h'⟩
        rcases List.mem_cons.mp hd' with rfl | hd'
        · rw [hsq] at h'; cases h'
        · exact ⟨d', hd', h'⟩
    | some u =>
      rw [Nat.testBit_or, testBit_one_shiftLeft]
      constructor
      · intro h
        rcases Bool.or_eq_true _ _ |>.mp h with h | h
        · have : u = t := of_decide_eq_true h
          exact ⟨d, List.mem_cons_self d ds, by rw [hsq, this]⟩
        · obtain ⟨d', hd', h'⟩ := (ih t).mp h
          exact ⟨d', List.mem_cons_of_mem d hd', h'⟩
      · rintro ⟨d', hd', h'⟩
        apply (Bool.or_eq_true _ _).mpr
        rcases List.mem_cons.mp hd' with rfl | hd'
        · rw [hsq, Option.some.injEq] at h'
          exact Or.inl (decide_eq_true h')
        · exact Or.inr ((ih t).mpr ⟨d', hd', h'⟩)

theorem stepBB_symm {s t : Nat} (hs : s < 64) {dsa dsb : List (Int × Int)}
    (hneg : ∀ d ∈ dsa, (-d.1, -d.2) ∈ dsb)
    (h : (stepBB s dsa).testBit t = true) : (stepBB t dsb).testBit s = true := by
  obtain ⟨d, hd, hsq⟩ := (stepBB_mem s dsa t).mp h
  exact (stepBB_mem t dsb s).mpr ⟨(-d.1, -d.2), hneg d hd, stepSq_rev hs hsq⟩

theorem knight_attacks_symm {s t : Nat} (hs : s < 64) (ht : t < 64) :
    (knight_attacks s).testBit t = (knight_attacks t).testBit s := by
  have hneg : ∀ d ∈ knightDirs, (-d.1, -d.2) ∈ knightDirs := by decide
  cases h1 : (knight_attacks s).testBit t with
  | true => exact (stepBB_symm hs hneg h1).symm
  | false =>
    cases h2 : (knight_attacks t).testBit s with
    | true =>
      have h3 : (knight_attacks s).testBit t = true := stepBB_symm ht hneg h2
      rw [h3] at h1
      cases h1
    | false => rfl

theorem king_attacks_symm {s t : Nat} (hs : s < 64) (ht : t < 64) :
    (king_attacks s).testBit t = (king_attacks t).testBit s := by
  have hneg : ∀ d ∈ allDirs, (-d.1, -d.2) ∈ allDirs := by decide
  cases h1 : (king_attacks s).testBit t with
  | true => exact (stepBB_symm hs hneg h1).symm
  | false =>
    cases h2 : (king_attacks t).testBit s with
    | true =>
      have h3 : (king_attacks s).testBit t = true := stepBB_symm ht hneg h2
      rw [h3] at h1
      cases h1
    | false => rfl

theorem pawn_attacks_symm {s t : Nat} (hs : s < 64) (ht : t < 64) :
    (pawn_attacks 0 s).testBit t = (pawn_attacks 1 t).testBit s := by
  have hnegW : ∀ d ∈ pawnDirsW, (-d.1, -d.2) ∈ pawnDirsB := by decide
  have hnegB : ∀ d ∈ pawnDirsB, (-d.1, -d.2) ∈ pawnDirsW := by decide
  show (stepBB s pawnDirsW).testBit t = (stepBB t pawnDirsB).testBit s
  cases h1 : (stepBB s pawnDirsW).testBit t with
  | true => exact (stepBB_symm hs hnegW h1).symm
  | false =>
    cases h2 : (stepBB t pawnDirsB).testBit s with
    | true => rw [stepBB_symm ht hnegB h2] at h1; cases h1
    | false => rfl

theorem and_eq_zero_iff_testBit {a b : Nat} :
    a &&& b = 0 ↔ ∀ i, ¬(a.testBit i = true ∧ b.testBit i = true) := by
  constructor
  · rintro h i ⟨h1, h2⟩
    have := congrArg (fun x => x.testBit i) h
    simp only [Nat.testBit_and, Nat.zero_testBit, h1, h2, Bool.and_self] at this
    cases this
  · intro h
    apply Nat.eq_of_testBit_eq
    intro i
    rw [Nat.testBit_and, Nat.zero_testBit]
    cases h1 : a.testBit i with
    | false => rfl
    | true =>
      cases h2 : b.testBit i with
      | false => rfl
      | true => exact absurd ⟨h1, h2⟩ (h i)

theorem and_one_shiftLeft_ne_zero {t x : Nat} :
    (1 <<< t) &&& x ≠ 0 ↔ x.testBit t = true := by
  constructor
  · intro h
    cases hx : x.testBit t with
    | true => rfl
    | false =>
      exfalso
      apply h
      apply Nat.eq_of_testBit_eq
      intro i
      rw [Nat.testBit_and, Nat.zero_testBit, testBit_one_shiftLeft]
      by_cases hi : t = i
      · subst hi
        rw [hx, Bool.and_false]
      · simp [hi]
  · intro h h0
    have := congrArg (fun y => y.testBit t) h0
    simp only [Nat.testBit_and, testBit_one_shiftLeft, Nat.zero_testBit, h,
      Bool.and_true, decide_eq_false_iff_not] at this
    exact this trivial

theorem lsbAux_spec :
    ∀ (fuel n : Nat), n ≠ 0 → n < 2 ^ fuel →
      n.testBit (lsbAux fuel n) = true ∧ ∀ j, j < lsbAux fuel n → n.testBit j = false := by
  intro fuel
  induction fuel with
  | zero =>
    intro n hn hb
    interval_cases n
    exact absurd rfl hn
  | succ fuel ih =>
    intro n hn hb
    by_cases hodd : n &&& 1 = 1
    · rw [show lsbAux (fuel + 1) n = if n &&& 1 = 1 then 0
        else 1 + lsbAux fuel (n >>> 1) from rfl, if_pos hodd]
      constructor
      · rw [Nat.testBit_zero]
        rw [Nat.and_one_is_mod] at hodd
        simp [hodd]
      · intro j hj
        omega
    · rw [show lsbAux (fuel + 1) n = if n &&& 1 = 1 then 0
        else 1 + lsbAux fuel (n >>> 1) from rfl, if_neg hodd]
      rw [Nat.and_one_is_mod] at hodd
      have heven : n % 2 = 0 := by omega
      have hm : n >>> 1 = n / 2 := Nat.shiftRight_one n
      have hm0 : n / 2 ≠ 0 := by omega
      have hmb : n / 2 < 2 ^ fuel := by
        rw [Nat.pow_succ] at hb
        omega
      obtain ⟨hL, hlow⟩ := ih (n >>> 1) (by rw [hm]; exact hm0) (by rw [hm]; exact hmb)
      constructor
      · rw [Nat.add_comm 1 (lsbAux fuel (n >>> 1)), Nat.testBit_add_one, ← hm]
        exact hL
      · intro j hj
        cases j with
        | zero =>
          rw [Nat.testBit_zero]
          simp [heven]
        | succ j =>
          rw [Nat.testBit_add_one, ← hm]
          exact hlow j (by omega)

theorem lsb_bit {n : Nat} (hn : n ≠ 0) (hb : n < 2 ^ 64) :
    n.testBit (lsb n) = true :=
  (lsbAux_spec 64 n hn hb).1

theorem lsb_lt {n : Nat} (hn : n ≠ 0) (hb : n < 2 ^ 64) : lsb n < 64 := by
  by_contra h
  push_neg at h
  have := lsb_bit hn hb
  rw [testBit_false_of_ge hb h] at this
  cases this

theorem and_pred_testBit :
    ∀ (fuel n : Nat), n ≠ 0 → n < 2 ^ fuel →
      ∀ i, (n &&& (n - 1)).testBit i = (n.testBit i && !decide (i = lsbAux fuel n)) := by
  intro fuel
  induction fuel with
  | zero =>
    intro n hn hb
    interval_cases n
    exact absurd rfl hn
  | succ fuel ih =>
    intro n hn hb i
    rw [Nat.testBit_and]
    by_cases hodd : n &&& 1 = 1
    · rw [show lsbAux (fuel + 1) n = if n &&& 1 = 1 then 0
        else 1 + lsbAux fuel (n >>> 1) from rfl, if_pos hodd]
      rw [Nat.and_one_is_mod] at hodd
      cases i with
      | zero =>
        have : (n - 1) % 2 = 0 := by omega
        rw [Nat.testBit_zero, Nat.testBit_zero]
        simp [this]
      | succ i =>
        have hhalf : (n - 1) / 2 = n / 2 := by omega
        rw [Nat.testBit_add_one, Nat.testBit_add_one, hhalf]
        simp
    · rw [show lsbAux (fuel + 1) n = if n &&& 1 = 1 then 0
        else 1 + lsbAux fuel (n >>> 1) from rfl, if_neg hodd]
      rw [Nat.and_one_is_mod] at hodd
      have heven : n % 2 = 0 := by omega
      have hm : n >>> 1 = n / 2 := Nat.shiftRight_one n
      have hm0 : n / 2 ≠ 0 := by omega
      have hmb : n / 2 < 2 ^ fuel := by
        rw [Nat.pow_succ] at hb
        omega
      cases i with
      | zero =>
        rw [Nat.testBit_zero, Nat.testBit_zero]
        simp [heven]
      | succ i =>
        have hpred : (n - 1) / 2 = n / 2 - 1 := by omega
        rw [Nat.testBit_add_one, Nat.testBit_add_one, hpred]
        have := ih (n / 2) hm0 hmb i
        rw [Nat.testBit_and] at this
        rw [this]
        have : decide (i = lsbAux fuel (n / 2)) =
            decide (i + 1 = 1 + lsbAux fuel (n >>> 1)) := by
          rw [hm]
          exact decide_eq_decide.mpr (by omega)
        rw [this]

theorem bit_split {n : Nat} (hn : n ≠ 0) (hb : n < 2 ^ 64) (i : Nat) :
    n.testBit i = ((n &&& (n - 1)).testBit i || decide (i = lsb n)) := by
  rw [and_pred_testBit 64 n hn hb i]
  rw [show lsbAux 64 n = lsb n from rfl]
  by_cases hi : i = lsb n
  · rw [hi, lsb_bit hn hb]
    simp
  · simp [hi]

theorem rest_bit_lsb {n : Nat} (hn : n ≠ 0) (hb : n < 2 ^ 64) :
    (n &&& (n - 1)).testBit (lsb n) = false := by
  rw [and_pred_testBit 64 n hn hb (lsb n)]
  simp [lsb]

theorem singleton_of_not_more {b : Nat} (hn : b ≠ 0) (hb : b < 2 ^ 64)
    (h : b &&& (b - 1) = 0) : b = 1 <<< lsb b := by
  apply Nat.eq_of_testBit_eq
  intro i
  rw [bit_split hn hb i, h, Nat.zero_testBit, testBit_one_shiftLeft]
  simp [eq_comm]

theorem more_than_one_one_shiftLeft (t : Nat) :
    more_than_one (1 <<< t) = false := by
  have : (1 <<< t) &&& (1 <<< t - 1) = 0 := by
    apply Nat.eq_of_testBit_eq
    intro i
    rw [Nat.testBit_and, Nat.zero_testBit, testBit_one_shiftLeft]
    by_cases hi : t = i
    · subst hi
      have : (1 <<< t : Nat) - 1 < 2 ^ t := by
        rw [Nat.one_shiftLeft]
        have : (0:Nat) < 2 ^ t := Nat.pos_pow_of_pos t (by norm_num)
        omega
      rw [Nat.testBit_lt_two_pow this]
      simp
    · simp [hi]
  simp [more_than_one, this]


theorem sbLoop_spec (p : Position) (s : Nat) :
    ∀ (fuel snipers : Nat) (acc : Bitboard × Bitboard),
      snipers < 2 ^ 64 → snipers ≤ fuel →
      (∀ t, ((sbLoop p s fuel snipers acc).1.testBit t = true ↔
        (acc.1.testBit t = true ∨ ∃ sn, sn < 64 ∧ snipers.testBit sn = true ∧
          (between_bb s sn &&& pieces p).testBit t = true ∧
          more_than_one (between_bb s sn &&& pieces p) = false))) ∧
      (∀ t, ((sbLoop p s fuel snipers acc).2.testBit t = true ↔
        (acc.2.testBit t = true ∨ (t < 64 ∧ snipers.testBit t = true ∧
          more_than_one (between_bb s t &&& pieces p) = false ∧
          between_bb s t &&& pieces p &&& piecesC p (color_of (piece_on p s)) ≠ 0)))) := by
  intro fuel
  induction fuel with
  | zero =>
    intro snipers acc hb hle
    have h0 : snipers = 0 := by omega
    subst h0
    constructor <;> intro t <;> simp [sbLoop, Nat.zero_testBit]
  | succ fuel ih =>
    intro snipers acc hb hle
    by_cases h0 : snipers = 0
    · subst h0
      constructor <;> intro t <;> simp [sbLoop, Nat.zero_testBit]
    · have hlsbbit : snipers.testBit (lsb snipers) = true := lsb_bit h0 hb
      have hlsblt : lsb snipers < 64 := lsb_lt h0 hb
      have hrest_b : snipers &&& (snipers - 1) < 2 ^ 64 :=
        lt_of_le_of_lt Nat.and_le_left hb
      have hrest_le : snipers &&& (snipers - 1) ≤ fuel :=
        le_trans Nat.and_le_right (by omega)
      have hsplit := bit_split h0 hb
      have hrestlsb := rest_bit_lsb h0 hb
      have ihr := ih (snipers &&& (snipers - 1)) acc hrest_b hrest_le
      have ihr2 := fun acc' => ih (snipers &&& (snipers - 1)) acc' hrest_b hrest_le
      constructor
      · intro t
        simp only [sbLoop]
        rw [if_neg h0]
        by_cases hmto : more_than_one (between_bb s (lsb snipers) &&& pieces p) = true
        · rw [if_pos hmto]
          rw [(ihr).1 t]
          constructor
          · rintro (h | ⟨sn, hsn64, hbit, hb1, hb2⟩)
            · exact Or.inl h
            · refine Or.inr ⟨sn, hsn64, ?_, hb1, hb2⟩
              rw [hsplit sn, hbit]
              simp
          · rintro (h | ⟨sn, hsn64, hbit, hb1, hb2⟩)
            · exact Or.inl h
            · refine Or.inr ⟨sn, hsn64, ?_, hb1, hb2⟩
              have hsnlsb : sn ≠ lsb snipers := by
                intro he
                rw [he] at hb2
                rw [hb2] at hmto
                cases hmto
              have hss := hsplit sn
              rw [hbit, decide_eq_false hsnlsb, Bool.or_false] at hss
              exact hss.symm
        · rw [if_neg hmto]
          rw [Bool.not_eq_true] at hmto
          rw [(ihr2 _).1 t]
          constructor
          · rintro (h | ⟨sn, hsn64, hbit, hb1, hb2⟩)
            · rw [Nat.testBit_or] at h
              rcases (Bool.or_eq_true _ _).mp h with h | h
              · exact Or.inl h
              · exact Or.inr ⟨lsb snipers, hlsblt, hlsbbit, h, hmto⟩
            · refine Or.inr ⟨sn, hsn64, ?_, hb1, hb2⟩
              rw [hsplit sn, hbit]
              simp
          · rintro (h | ⟨sn, hsn64, hbit, hb1, hb2⟩)
            · left
              rw [Nat.testBit_or, h]
              simp
            · by_cases hsl : sn = lsb snipers
              · left
                rw [Nat.testBit_or]
                rw [← hsl, hb1]
                simp
              · refine Or.inr ⟨sn, hsn64, ?_, hb1, hb2⟩
                have hss := hsplit sn
                rw [hbit, decide_eq_false hsl, Bool.or_false] at hss
                exact hss.symm
      · intro t
        simp only [sbLoop]
        rw [if_neg h0]
        by_cases hmto : more_than_one (between_bb s (lsb snipers) &&& pieces p) = true
        · rw [if_pos hmto]
          rw [(ihr).2 t]
          constructor
          · rintro (h | ⟨ht64, hbit, hb1, hb2⟩)
            · exact Or.inl h
            · refine Or.inr ⟨ht64, ?_, hb1, hb2⟩
              rw [hsplit t, hbit]
              simp
          · rintro (h | ⟨ht64, hbit, hb1, hb2⟩)
            · exact Or.inl h
            · have htl : t ≠ lsb snipers := by
                intro he
                rw [he] at hb1
                rw [hb1] at hmto
                cases hmto
              refine Or.inr ⟨ht64, ?_, hb1, hb2⟩
              have hss := hsplit t
              rw [hbit, decide_eq_false htl, Bool.or_false] at hss
              exact hss.symm
        · rw [if_neg hmto]
          rw [Bool.not_eq_true] at hmto
          by_cases hpin : between_bb s (lsb snipers) &&& pieces p &&&
              piecesC p (color_of (piece_on p s)) ≠ 0
          · rw [if_pos hpin]
            rw [(ihr2 _).2 t]
            constructor
            · rintro (h | ⟨ht64, hbit, hb1, hb2⟩)
              · rw [Nat.testBit_or, testBit_one_shiftLeft] at h
                rcases (Bool.or_eq_true _ _).mp h with h | h
                · exact Or.inl h
                · have htl : lsb snipers = t := of_decide_eq_true h
                  subst htl
                  exact Or.inr ⟨hlsblt, hlsbbit, hmto, hpin⟩
              · refine Or.inr ⟨ht64, ?_, hb1, hb2⟩
                rw [hsplit t, hbit]
                simp
            · rintro (h | ⟨ht64, hbit, hb1, hb2⟩)
              · left
                rw [Nat.testBit_or, h]
                simp
              · by_cases htl : t = lsb snipers
                · left
                  rw [Nat.testBit_or, testBit_one_shiftLeft, htl]
                  simp
                · refine Or.inr ⟨ht64, ?_, hb1, hb2⟩
                  have hss := hsplit t
                  rw [hbit, decide_eq_false htl, Bool.or_false] at hss
                  exact hss.symm
          · rw [if_neg hpin]
            rw [(ihr2 _).2 t]
            constructor
            · rintro (h | ⟨ht64, hbit, hb1, hb2⟩)
              · exact Or.inl h
              · refine Or.inr ⟨ht64, ?_, hb1, hb2⟩
                rw [hsplit t, hbit]
                simp
            · rintro (h | ⟨ht64, hbit, hb1, hb2⟩)
              · exact Or.inl h
              · by_cases htl : t = lsb snipers
                · exfalso
                  apply hpin
                  rw [← htl]
                  exact hb2
                · refine Or.inr ⟨ht64, ?_, hb1, hb2⟩
                  have hss := hsplit t
                  rw [hbit, decide_eq_false htl, Bool.or_false] at hss
                  exact hss.symm

/-- Claim C7: the blocker set of `slider_blockers` holds square t exactly when
t carries the only piece on the open segment between the target square and
some sniper of the slider set (zero-piece segments are direct attacks and
multi-piece segments are discarded, so neither contributes), and a sniper is
recorded as a pinner exactly when its unique segment piece has the color of
the piece standing on the target square. -/
theorem slider_blockers_characterization (p : Position) (sliders s : Nat)
    (hv : Valid p) :
    (∀ t, ((slider_blockers p sliders s).1.testBit t = true ↔
      ∃ sn, sn < 64 ∧ (sniper_mask p sliders s).testBit sn = true ∧
        between_bb s sn &&& pieces p = 1 <<< t)) ∧
    (∀ sn, ((slider_blockers p sliders s).2.testBit sn = true ↔
      sn < 64 ∧ (sniper_mask p sliders s).testBit sn = true ∧
      ∃ t, between_bb s sn &&& pieces p = 1 <<< t ∧
        (piecesC p (color_of (piece_on p s))).testBit t = true)) := by
  obtain ⟨hbt, -, -, -, -, -, -, -, -⟩ := hv
  have h54 : piecesTT p 5 4 < 2 ^ 64 :=
    Nat.or_lt_two_pow (hbt 5 (by norm_num)) (hbt 4 (by norm_num))
  have h53 : piecesTT p 5 3 < 2 ^ 64 :=
    Nat.or_lt_two_pow (hbt 5 (by norm_num)) (hbt 3 (by norm_num))
  have hsb : sniper_mask p sliders s < 2 ^ 64 :=
    lt_of_le_of_lt Nat.and_le_left
      (Nat.or_lt_two_pow (lt_of_le_of_lt Nat.and_le_right h54)
        (lt_of_le_of_lt Nat.and_le_right h53))
  have hspec := sbLoop_spec p s (sniper_mask p sliders s) (sniper_mask p sliders s)
    (0, 0) hsb (le_refl _)
  have hocc : pieces p < 2 ^ 64 := hbt 0 (by norm_num)
  constructor
  · intro t
    rw [show (slider_blockers p sliders s).1 =
      (sbLoop p s (sniper_mask p sliders s) (sniper_mask p sliders s) (0, 0)).1 from rfl]
    rw [hspec.1 t]
    constructor
    · rintro (h | ⟨sn, hsn64, hbit, hb1, hb2⟩)
      · rw [show ((0, 0) : Bitboard × Bitboard).1 = 0 from rfl, Nat.zero_testBit] at h
        cases h
      · refine ⟨sn, hsn64, hbit, ?_⟩
        have hbne : between_bb s sn &&& pieces p ≠ 0 := by
          intro hz
          rw [hz, Nat.zero_testBit] at hb1
          cases hb1
        have hblt : between_bb s sn &&& pieces p < 2 ^ 64 :=
          lt_of_le_of_lt Nat.and_le_right hocc
        have hpred : (between_bb s sn &&& pieces p) &&&
            ((between_bb s sn &&& pieces p) - 1) = 0 := by
          have := hb2
          simp only [more_than_one, decide_eq_false_iff_not, not_not] at this
          exact this
        have hsing := singleton_of_not_more hbne hblt hpred
        rw [hsing, testBit_one_shiftLeft] at hb1
        rw [hsing, of_decide_eq_true hb1]
    · rintro ⟨sn, hsn64, hbit, hsing⟩
      right
      refine ⟨sn, hsn64, hbit, ?_, ?_⟩
      · rw [hsing, testBit_one_shiftLeft]
        simp
      · rw [hsing]
        exact more_than_one_one_shiftLeft t
  · intro sn
    rw [show (slider_blockers p sliders s).2 =
      (sbLoop p s (sniper_mask p sliders s) (sniper_mask p sliders s) (0, 0)).2 from rfl]
    rw [hspec.2 sn]
    constructor
    · rintro (h | ⟨hsn64, hbit, hb1, hb2⟩)
      · rw [show ((0, 0) : Bitboard × Bitboard).2 = 0 from rfl, Nat.zero_testBit] at h
        cases h
      · refine ⟨hsn64, hbit, ?_⟩
        have hbne : between_bb s sn &&& pieces p ≠ 0 := by
          intro hz
          rw [hz] at hb2
          simp at hb2
        have hblt : between_bb s sn &&& pieces p < 2 ^ 64 :=
          lt_of_le_of_lt Nat.and_le_right hocc
        have hpred : (between_bb s sn &&& pieces p) &&&
            ((between_bb s sn &&& pieces p) - 1) = 0 := by
          have := hb1
          simp only [more_than_one, decide_eq_false_iff_not, not_not] at this
          exact this
        have hsing := singleton_of_not_more hbne hblt hpred
        refine ⟨lsb (between_bb s sn &&& pieces p), hsing, ?_⟩
        rw [hsing] at hb2
        exact and_one_shiftLeft_ne_zero.mp hb2
    · rintro ⟨hsn64, hbit, t, hsing, hown⟩
      right
      refine ⟨hsn64, hbit, ?_, ?_⟩
      · rw [hsing]
        exact more_than_one_one_shiftLeft t
      · rw [hsing]
        exact and_one_shiftLeft_ne_zero.mpr hown


theorem attacks_bb_empty {pc u : Nat} (hp : pc % 8 = 0 ∨ 6 < pc % 8) (occ : Bitboard) :
    attacks_bb pc u occ = 0 := by
  unfold attacks_bb step_attacks type_of
  rcases hp with h | h
  · rw [h]
    norm_num
  · rw [if_neg (by omega), if_neg (by omega), if_neg (by omega),
      if_neg (by omega), if_neg (by omega), if_neg (by omega)]

theorem attackers_to_bit (p : Position) (hv : Valid p) {t u : Nat}
    (ht : t < 64) (hu : u < 64) :
    (attackers_to p t (pieces p)).testBit u =
      (attacks_bb (p.board u) u (pieces p)).testBit t := by
  obtain ⟨hbt, hbc, hbp, hm0, hmc, hmt, -, -, -⟩ := hv
  have e01 : (piecesCT p 0 1).testBit u =
      (decide (p.board u ≠ 0 ∧ color_of (p.board u) = 0) &&
       decide (p.board u ≠ 0 ∧ type_of (p.board u) = 1)) := by
    show (p.byColorBB 0 &&& p.byTypeBB 1).testBit u = _
    rw [Nat.testBit_and, hmc u hu 0 (by norm_num), hmt u hu 1 (by norm_num) (by norm_num)]
  have e11 : (piecesCT p 1 1).testBit u =
      (decide (p.board u ≠ 0 ∧ color_of (p.board u) = 1) &&
       decide (p.board u ≠ 0 ∧ type_of (p.board u) = 1)) := by
    show (p.byColorBB 1 &&& p.byTypeBB 1).testBit u = _
    rw [Nat.testBit_and, hmc u hu 1 (by norm_num), hmt u hu 1 (by norm_num) (by norm_num)]
  have e2 : (piecesT p 2).testBit u =
      decide (p.board u ≠ 0 ∧ type_of (p.board u) = 2) := by
    show (p.byTypeBB 2).testBit u = _
    rw [hmt u hu 2 (by norm_num) (by norm_num)]
  have e45 : (piecesTT p 4 5).testBit u =
      (decide (p.board u ≠ 0 ∧ type_of (p.board u) = 4) ||
       decide (p.board u ≠ 0 ∧ type_of (p.board u) = 5)) := by
    show (p.byTypeBB 4 ||| p.byTypeBB 5).testBit u = _
    rw [Nat.testBit_or, hmt u hu 4 (by norm_num) (by norm_num),
      hmt u hu 5 (by norm_num) (by norm_num)]
  have e35 : (piecesTT p 3 5).testBit u =
      (decide (p.board u ≠ 0 ∧ type_of (p.board u) = 3) ||
       decide (p.board u ≠ 0 ∧ type_of (p.board u) = 5)) := by
    show (p.byTypeBB 3 ||| p.byTypeBB 5).testBit u = _
    rw [Nat.testBit_or, hmt u hu 3 (by norm_num) (by norm_num),
      hmt u hu 5 (by norm_num) (by norm_num)]
  have e6 : (piecesT p 6).testBit u =
      decide (p.board u ≠ 0 ∧ type_of (p.board u) = 6) := by
    show (p.byTypeBB 6).testBit u = _
    rw [hmt u hu 6 (by norm_num) (by norm_num)]
  simp only [attackers_to, Nat.testBit_or, Nat.testBit_and, e01, e11, e2, e45, e35, e6]
  rcases hbp u hu with hbu | hbu
  · rw [attacks_bb_empty (by omega : p.board u % 8 = 0 ∨ 6 < p.board u % 8)]
    simp [hbu, Nat.zero_testBit]
  · have hne : p.board u ≠ 0 := by
      intro h
      rw [h] at hbu
      exact absurd hbu.2.1 (by norm_num)
    have ht6 : type_of (p.board u) = 1 ∨ type_of (p.board u) = 2 ∨
        type_of (p.board u) = 3 ∨ type_of (p.board u) = 4 ∨
        type_of (p.board u) = 5 ∨ type_of (p.board u) = 6 := by
      have h1 := hbu.2.1
      have h2 := hbu.2.2
      unfold type_of
      omega
    rcases ht6 with hτ | hτ | hτ | hτ | hτ | hτ
    · -- pawn
      have hc01 : color_of (p.board u) = 0 ∨ color_of (p.board u) = 1 := by
        have := hbu.1
        unfold color_of
        omega
      rcases hc01 with hc | hc
      · simp only [attacks_bb, step_attacks, hne, hτ, hc]
        norm_num
        rw [← pawn_attacks_symm hu ht]
        simp [hne]
      · simp only [attacks_bb, step_attacks, hne, hτ, hc]
        norm_num
        rw [pawn_attacks_symm ht hu]
        simp [hne]
    · simp only [attacks_bb, step_attacks, hne, hτ]
      norm_num
      rw [knight_attacks_symm ht hu]
      simp [hne]
    · simp only [attacks_bb, hne, hτ]
      norm_num
      rw [bishop_attacks_symm ht hu]
      simp [hne]
    · simp only [attacks_bb, hne, hτ]
      norm_num
      rw [rook_attacks_symm ht hu]
      simp [hne]
    · simp only [attacks_bb, hne, hτ, Nat.testBit_or]
      norm_num
      rw [rook_attacks_symm ht hu, bishop_attacks_symm ht hu]
      simp [hne]
    · simp only [attacks_bb, step_attacks, hne, hτ]
      norm_num
      rw [king_attacks_symm ht hu]
      simp [hne]

/-- Claim C8 (amended): for a pseudo-legal non-castling king move the
legality oracle answers true iff no enemy piece attacks the destination
square under the current occupancy — an occupancy in which the king still
stands on its origin square and blocks enemy rays, contrary to the claim's
requirement that the origin square not block. -/
theorem king_move_legal_iff (p : Position) (m : Move) (hv : Valid p)
    (hstm : p.sideToMove < 2) (h0 : m.kind = 0)
    (hk : type_of (p.board m.f) = 6) (ht : m.t < 64) :
    legal p m = true ↔ ∀ u, u < 64 → p.board u ≠ 0 →
      color_of (p.board u) = p.sideToMove ^^^ 1 →
      (attacks_bb (p.board u) u (pieces p)).testBit m.t = false := by
  have hvK := hv
  obtain ⟨-, hbc, -, -, hmc, -, -, -, -⟩ := hv
  have hthem : p.sideToMove ^^^ 1 < 2 := by
    rcases (by omega : p.sideToMove = 0 ∨ p.sideToMove = 1) with h | h <;> simp [h]
  have hL : legal p m = true ↔
      attackers_to p m.t (pieces p) &&& piecesC p (p.sideToMove ^^^ 1) = 0 := by
    unfold legal piece_on
    rw [if_neg (by omega), if_pos hk]
    rw [show ((m.kind = 3 ∨
        attackers_to p m.t (pieces p) &&& piecesC p (p.sideToMove ^^^ 1) = 0 : Bool)) =
      decide (m.kind = 3 ∨
        attackers_to p m.t (pieces p) &&& piecesC p (p.sideToMove ^^^ 1) = 0) from rfl]
    rw [decide_eq_true_eq]
    constructor
    · rintro (h | h)
      · omega
      · exact h
    · intro h
      exact Or.inr h
  rw [hL, and_eq_zero_iff_testBit]
  constructor
  · intro h u hu hne hcol
    have hcb : (piecesC p (p.sideToMove ^^^ 1)).testBit u = true := by
      show (p.byColorBB _).testBit u = true
      rw [hmc u hu _ hthem]
      simp [hne, hcol]
    cases hx : (attackers_to p m.t (pieces p)).testBit u with
    | false =>
      rw [attackers_to_bit p hvK ht hu] at hx
      exact hx
    | true => exact absurd ⟨hx, hcb⟩ (h u)
  · intro h u
    rintro ⟨ha, hc⟩
    by_cases hu : u < 64
    · rw [show piecesC p (p.sideToMove ^^^ 1) = p.byColorBB (p.sideToMove ^^^ 1) from rfl,
        hmc u hu _ hthem] at hc
      obtain ⟨hne, hcol⟩ := of_decide_eq_true hc
      have hf := h u hu hne hcol
      rw [attackers_to_bit p hvK ht hu, hf] at ha
      cases ha
    · push_neg at hu
      rw [show piecesC p (p.sideToMove ^^^ 1) = p.byColorBB (p.sideToMove ^^^ 1) from rfl,
        testBit_false_of_ge (hbc _ hthem) hu] at hc
      cases hc


/-- Modelled from the spec: the spec words en-passant legality as "after
hypothetically removing the mover and captured pawn and placing the mover at
the destination, no enemy rook/queen or bishop/queen attacks the king" — per
enemy slider, under the modified occupancy.  Comparison definition for
claim C6. -/
def ep_exposure_free (p : Position) (m : Move) : Prop :=
  (∀ u, u < 64 → (piecesCTT p (p.sideToMove ^^^ 1) 5 4).testBit u = true →
    (attacks_bb_rook u ((pieces p ^^^ (1 <<< m.f) ^^^
      (1 <<< pawn_push_sub p.sideToMove m.t)) ||| (1 <<< m.t))).testBit
      (king_square p p.sideToMove) = false) ∧
  (∀ u, u < 64 → (piecesCTT p (p.sideToMove ^^^ 1) 5 3).testBit u = true →
    (attacks_bb_bishop u ((pieces p ^^^ (1 <<< m.f) ^^^
      (1 <<< pawn_push_sub p.sideToMove m.t)) ||| (1 <<< m.t))).testBit
      (king_square p p.sideToMove) = false)

instance (p : Position) (m : Move) : Decidable (ep_exposure_free p m) := by
  unfold ep_exposure_free
  exact inferInstance

theorem masked_attack_zero_iff {A : Nat → Bitboard → Bitboard} {M occ : Bitboard}
    {ksq : Nat} (hk : ksq < 64) (hM : M < 2 ^ 64)
    (hsym : ∀ a b : Nat, a < 64 → b < 64 → (A a occ).testBit b = (A b occ).testBit a) :
    A ksq occ &&& M = 0 ↔
      ∀ u, u < 64 → M.testBit u = true → (A u occ).testBit ksq = false := by
  rw [and_eq_zero_iff_testBit]
  constructor
  · intro h u hu hM'
    cases hx : (A u occ).testBit ksq with
    | false => rfl
    | true =>
      exfalso
      apply h u
      refine ⟨?_, hM'⟩
      rw [hsym ksq u hk hu]
      exact hx
  · intro h i
    rintro ⟨h1, h2⟩
    by_cases hi : i < 64
    · have := h i hi h2
      rw [hsym ksq i hk hi, this] at h1
      cases h1
    · push_neg at hi
      rw [testBit_false_of_ge hM hi] at h2
      cases h2

/-- Claim C6: for every pseudo-legal en-passant capture the legality oracle
answers true iff, in the occupancy obtained by removing both the moving pawn
and the captured pawn and placing the mover on the destination square, no
enemy rook or queen attacks the mover's king along a rank or file and no
enemy bishop or queen attacks it along a diagonal. -/
theorem ep_legal_iff_exposure_free (p : Position) (m : Move) (hv : Valid p)
    (h2 : m.kind = 2) (hk : king_square p p.sideToMove < 64) :
    legal p m = true ↔ ep_exposure_free p m := by
  obtain ⟨hbt, -, -, -, -, -, -, -, -⟩ := hv
  have h54 : piecesCTT p (p.sideToMove ^^^ 1) 5 4 < 2 ^ 64 :=
    lt_of_le_of_lt Nat.and_le_right
      (Nat.or_lt_two_pow (hbt 5 (by norm_num)) (hbt 4 (by norm_num)))
  have h53 : piecesCTT p (p.sideToMove ^^^ 1) 5 3 < 2 ^ 64 :=
    lt_of_le_of_lt Nat.and_le_right
      (Nat.or_lt_two_pow (hbt 5 (by norm_num)) (hbt 3 (by norm_num)))
  have hL : legal p m =
      decide ((attacks_bb_rook (king_square p p.sideToMove)
          ((pieces p ^^^ (1 <<< m.f) ^^^
            (1 <<< pawn_push_sub p.sideToMove m.t)) ||| (1 <<< m.t)) &&&
          piecesCTT p (p.sideToMove ^^^ 1) 5 4 = 0) ∧
        (attacks_bb_bishop (king_square p p.sideToMove)
          ((pieces p ^^^ (1 <<< m.f) ^^^
            (1 <<< pawn_push_sub p.sideToMove m.t)) ||| (1 <<< m.t)) &&&
          piecesCTT p (p.sideToMove ^^^ 1) 5 3 = 0)) := by
    unfold legal
    rw [if_pos h2]
  rw [hL, decide_eq_true_eq]
  unfold ep_exposure_free
  exact and_congr
    (masked_attack_zero_iff hk h54
      (fun a b ha hb => rook_attacks_symm ha hb _))
    (masked_attack_zero_iff hk h53
      (fun a b ha hb => bishop_attacks_symm ha hb _))

/-- Position of the C6 witness: white king e5, white pawn b5, black pawn c5
just pushed two squares (en-passant square c6), black rook a5 on the same
rank. -/
def c6pos : Position := fen_set "6k1/8/8/rPp1K3/8/8/8/8 w - c6 0 2".toList

/-- The en-passant capture b5xc6. -/
def c6move : Move := ⟨33, 42, 2, 0⟩

set_option maxRecDepth 100000 in
set_option maxHeartbeats 1000000 in
/-- Witness for claim C6: in the rank-pin scenario both pawns vacate rank 5,
the rook a5 then attacks the king e5, and the oracle indeed rejects the
capture — matching the spec-side predicate, which also fails here. -/
theorem ep_legal_iff_exposure_free_witness :
    (legal c6pos c6move = true ↔ ep_exposure_free c6pos c6move) ∧
    legal c6pos c6move = false ∧ ¬ ep_exposure_free c6pos c6move :=
  ⟨ep_legal_iff_exposure_free c6pos c6move (by decide) (by decide) (by decide),
   by decide, by decide⟩

/-- Position of the C7 witness: white king e1, white bishop e4, black rook
e8 — the bishop is the only piece between king and rook. -/
def c7pos : Position := fen_set "4r3/8/8/8/4B3/8/8/4K2k w - - 0 1".toList

/-- The same scene with a black knight added on e5, a second piece in the
king-rook segment. -/
def c7posB : Position := fen_set "4r3/8/8/4n3/4B3/8/8/4K2k w - - 0 1".toList

set_option maxRecDepth 100000 in
set_option maxHeartbeats 1000000 in
/-- Witness for claim C7: against the black sliders of the pin scene the
bishop e4 (square 28) is reported as a blocker and the rook e8 (square 60)
as a pinner, and after a second piece enters the segment both sets are
empty. -/
theorem slider_blockers_characterization_witness :
    (slider_blockers c7pos (piecesC c7pos 1) 4).1.testBit 28 = true ∧
    (slider_blockers c7pos (piecesC c7pos 1) 4).2.testBit 60 = true ∧
    slider_blockers c7posB (piecesC c7posB 1) 4 = (0, 0) :=
  ⟨((slider_blockers_characterization c7pos (piecesC c7pos 1) 4 (by decide)).1 28).mpr
      ⟨60, by decide, by decide, by decide⟩,
   ((slider_blockers_characterization c7pos (piecesC c7pos 1) 4 (by decide)).2 60).mpr
      ⟨by decide, by decide, 28, by decide, by decide⟩,
   by decide⟩

/-- Position of the C8 scene: black king a8, black rook e8, white king e4
standing on the rook's file; the move under test steps the king to e3,
staying on that file. -/
def c8pos : Position := fen_set "k3r3/8/8/8/4K3/8/8/8 w - - 0 1".toList

/-- The king retreat e4-e3 along the attacked file. -/
def c8move : Move := ⟨28, 20, 0, 0⟩

set_option maxRecDepth 100000 in
set_option maxHeartbeats 1000000 in
/-- Witness for claim C8: the amended characterization applied to the
file-retreat scene, where the oracle accepts the move because the king's own
square still blocks the rook's ray in the occupancy it consults. -/
theorem king_move_legal_iff_witness :
    (legal c8pos c8move = true ↔ ∀ u, u < 64 → c8pos.board u ≠ 0 →
      color_of (c8pos.board u) = c8pos.sideToMove ^^^ 1 →
      (attacks_bb (c8pos.board u) u (pieces c8pos)).testBit c8move.t = false) ∧
    legal c8pos c8move = true :=
  ⟨king_move_legal_iff c8pos c8move (by decide) (by decide) (by decide) (by decide)
      (by decide),
   by decide⟩

set_option maxRecDepth 100000 in
set_option maxHeartbeats 1000000 in
/-- Counterexample for claim C8: the oracle accepts the king retreat e4-e3,
yet under the occupancy with the king's origin square removed — the
computation the claim prescribes — the destination is attacked by the black
rook, so the move would have to be rejected. -/
theorem king_retreat_accepted_along_ray :
    legal c8pos c8move = true ∧
    attackers_to c8pos 20 (pieces c8pos ^^^ (1 <<< 28)) &&& piecesC c8pos 1 ≠ 0 :=
  ⟨by decide, by decide⟩


end SF

